import Mathlib

/-!
Verification development for `stackcollapse-callgrind.py`, a converter from
the Callgrind profile format to collapsed-stack lines.

The Python source is shallowly embedded as follows:

* the three global resolver tables `ob`/`fl`/`fn` and the `functions`
  registry are gathered in an explicit state value `Globs`, threaded
  through the functions that mutate them in the source;
* Python dicts are association lists keyed in insertion order (Python
  dicts preserve insertion order, which the collapser relies on);
* `Function` objects are values stored in the `functions` registry keyed
  by their display signature `file#name` (the source interns one object
  per signature via `lookup_f`, so mutation of a shared object is
  modelled as updating the entry of its signature, and the object
  references held in `calls` are modelled by the identity triples, from
  which the registry entry is recovered via that signature);
* fallible operations (the resolver's undefined-reference error, `KeyError`
  and `int()` failures-as-crashes) return `Except String`;
* Python floats are modelled as exact rationals (`ℚ`), and Python's
  builtin `round` (round-half-to-even) as `pyRound : ℚ → ℤ`.
-/

namespace StackCollapse

/-! ### Reference resolver (`lookup`, source lines 77-90)

The source matches `name` against the prefix regexes
`(\([0-9]+\)) (.+)` (a definition token) and `(\([0-9]+\))` (a bare
back-reference).  `splitRef` extracts the leading `(digits)` group and
the remaining characters; since `[0-9]+` is greedy and any shorter
digit-run is followed by another digit, maximal-run matching is
equivalent to the regex. -/

abbrev RTable := List (String × String)

def tblFind (table : RTable) (num : String) : Option String :=
  (table.find? (fun e => e.1 == num)).map Prod.snd

def splitRef (s : String) : Option (String × String) :=
  match s.toList with
  | '(' :: rest =>
    let ds := rest.takeWhile Char.isDigit
    let rest2 := rest.dropWhile Char.isDigit
    if ds.isEmpty then none
    else
      match rest2 with
      | ')' :: tail => some ("(" ++ String.mk ds ++ ")", String.mk tail)
      | _ => none
  | _ => none

/-- Model of `lookup(table, name)` (source lines 77-90).  A definition
token `"(N) value"` (the remainder after `(N)` is a space followed by at
least one character, mirroring `" (.+)"`) stores `value` under `N` only
when `N` is unseen, and returns `value` either way.  A bare reference
`"(N)"` (any remainder not of the definition shape, mirroring that the
second regex only has to match a prefix) looks `N` up and fails when it
is absent.  Anything else is returned verbatim. -/
def lookup (table : RTable) (name : String) : Except String (RTable × String) :=
  match splitRef name with
  | some (num, rest) =>
    match rest.toList with
    | ' ' :: c :: cs =>
      let val := String.mk (c :: cs)
      if (tblFind table num).isSome then .ok (table, val)
      else .ok (table ++ [(num, val)], val)
    | _ =>
      match tblFind table num with
      | some v => .ok (table, v)
      | none => .error (num ++ " not found")
  | none => .ok (table, name)

/-! ### Call graph model (`class Function`, source lines 105-163) -/

/-- Identity triple of a `Function` object; `__eq__`/`__hash__` compare
exactly these three fields (source lines 127-133). -/
structure Ident where
  objectname : String
  filename : String
  name : String
deriving DecidableEq, Repr

/-- Display signature, `Function.__str__` (source lines 124-125):
`"{filename}#{name}"` — the `objectname` is dropped. -/
def Ident.sig (i : Ident) : String := i.filename ++ "#" ++ i.name

/-- State of one `Function` object.  `callfunctions` is omitted: it is a
set holding exactly the members of `calls` (the two are only ever updated
together in `add_call`), so membership is tested on `calls` directly. -/
structure Function where
  ident : Ident
  calls : List Ident
  callcosts : List (Ident × Int)
  callcounts : List (Ident × Int)
  cost : Int
  total_call_cost : Int
  total_call_count : Int
deriving DecidableEq, Repr

def Function.str (f : Function) : String := f.ident.sig

/-- `Function.__init__` (source lines 106-119). -/
def Function.init (objectname filename name : String) : Function :=
  ⟨⟨objectname, filename, name⟩, [], [], [], 0, 0, 0⟩

/-- The global `functions` registry: display signature → node, in
insertion order. -/
abbrev GMap := List (String × Function)

def getF (g : GMap) (s : String) : Option Function :=
  (g.find? (fun p => p.1 == s)).map Prod.snd

/-- Dict assignment: overwrite the (unique) entry of an existing key in
place, append a fresh key at the end. -/
def setF : GMap → String → Function → GMap
  | [], s, n => [(s, n)]
  | p :: rest, s, n => if p.1 == s then (s, n) :: rest else p :: setF rest s n

/-- Dict read with default `0`.  In the source a missing key raises
`KeyError`; every read in the program is protected by a preceding
insertion, so the default is never observable on executions the source
completes. -/
def alGet (l : List (Ident × Int)) (i : Ident) : Int :=
  match l.find? (fun e => e.1 == i) with
  | some e => e.2
  | none => 0

def alSet : List (Ident × Int) → Ident → Int → List (Ident × Int)
  | [], i, v => [(i, v)]
  | e :: rest, i, v => if e.1 == i then (i, v) :: rest else e :: alSet rest i v

/-- `Function.add_call(self, callee, count)` (source lines 135-150),
with `self` and `callee` named by their registry signatures.  The first
block registers the callee structurally; the `self == callee` guard then
skips all accumulation; otherwise the caller's per-edge accumulators and
the callee's `total_call_count` are bumped (re-fetching from the updated
registry models sequential mutation of the shared objects). -/
def add_call (g : GMap) (callerSig calleeSig : String) (count : Int) : GMap :=
  match getF g callerSig, getF g calleeSig with
  | some caller, some callee =>
    let g1 :=
      if callee.ident ∈ caller.calls then g
      else setF g callerSig { caller with
        calls := caller.calls ++ [callee.ident],
        callcosts := alSet caller.callcosts callee.ident 0,
        callcounts := alSet caller.callcounts callee.ident 0 }
    if caller.ident = callee.ident then g1
    else
      let g2 :=
        match getF g1 callerSig with
        | some c1 => setF g1 callerSig { c1 with
            callcosts := alSet c1.callcosts callee.ident (alGet c1.callcosts callee.ident + 0),
            callcounts := alSet c1.callcounts callee.ident (alGet c1.callcounts callee.ident + count) }
        | none => g1
      match getF g2 calleeSig with
      | some e2 => setF g2 calleeSig { e2 with total_call_count := e2.total_call_count + count }
      | none => g2
  | _, _ => g

/-- `Function.add_callcost(self, callee, cost)` (source lines 152-160):
after the recursion guard, the cost is added onto the edge of the *last*
callee in `self.calls` (`self.calls[-1]`), and onto the callee's
`total_call_cost`.  An empty `calls` list would raise `IndexError` in
the source (unreachable under the parser protocol); here it leaves the
registry unchanged. -/
def add_callcost (g : GMap) (callerSig calleeSig : String) (cost : Int) : GMap :=
  match getF g callerSig, getF g calleeSig with
  | some caller, some callee =>
    if caller.ident = callee.ident then g
    else
      match caller.calls.getLast? with
      | some last =>
        let g1 := setF g callerSig { caller with
          callcosts := alSet caller.callcosts last (alGet caller.callcosts last + cost) }
        match getF g1 calleeSig with
        | some e1 => setF g1 calleeSig { e1 with total_call_cost := e1.total_call_cost + cost }
        | none => g1
      | none => g
  | _, _ => g

/-- `Function.add_cost` (source lines 162-163). -/
def add_cost (g : GMap) (s : String) (cost : Int) : GMap :=
  match getF g s with
  | some n => setF g s { n with cost := n.cost + cost }
  | none => g

/-! ### Global state and `lookup_f` (source lines 71-74, 193-201) -/

structure Globs where
  ob : RTable
  fl : RTable
  fn : RTable
  functions : GMap
deriving Repr

def Globs.empty : Globs := ⟨[], [], [], []⟩

/-- `lookup_f(ob, fl, fn)` (source lines 193-201): resolve the three
names, build a candidate `Function`, and intern it in the registry under
its display signature `file#name` — an existing entry under that
signature wins, whatever `objectname` it carries. -/
def lookup_f (gs : Globs) (obName flName fnName : String) : Except String (Globs × String) :=
  match lookup gs.ob obName with
  | .error e => .error e
  | .ok (obT, obstr) =>
    match lookup gs.fl flName with
    | .error e => .error e
    | .ok (flT, flstr) =>
      match lookup gs.fn fnName with
      | .error e => .error e
      | .ok (fnT, fnstr) =>
        let func := Function.init obstr flstr fnstr
        let signature := func.str
        let functions :=
          if (getF gs.functions signature).isSome then gs.functions
          else gs.functions ++ [(signature, func)]
        .ok ({ gs with ob := obT, fl := flT, fn := fnT, functions := functions }, signature)

/-! ### Stack collapser (`Function.print_stacks`, source lines 165-190,
and the root loop of `main`, source lines 315-318) -/

/-- Python's `";".join`. -/
def joinSemi : List String → String
  | [] => ""
  | [x] => x
  | x :: y :: ys => x ++ ";" ++ joinSemi (y :: ys)

/-- Python's builtin `round` on the exact value: round half to even,
returning an integer. -/
def pyRound (q : ℚ) : ℤ :=
  if q - (Int.floor q : ℚ) < 1/2 then Int.floor q
  else if 1/2 < q - (Int.floor q : ℚ) then Int.floor q + 1
  else if Int.floor q % 2 = 0 then Int.floor q else Int.floor q + 1

/-- The scale factor of source lines 172-176: `count / total_call_count`
when the node has inbound calls, else `1.0`. -/
def scaleOf (node : Function) (count : Int) : ℚ :=
  if 0 < node.total_call_count then (count : ℚ) / (node.total_call_count : ℚ) else 1

/-- All display signatures stored in the registry (used only as a
termination measure for the traversal). -/
def sigsOf (g : GMap) : Finset String :=
  (g.map (fun p => p.2.str)).toFinset

/-- `Function.print_stacks(self, stack, count, cost)` (source lines
165-190), returning the printed lines in order.  The cycle guard returns
before pushing; otherwise the signature is pushed for the duration of
the call (modelled by passing the extended stack down) and popped on
return.  A non-leaf node prints its scaled self cost and recurses into
each callee in first-seen order; a leaf prints the inclusive cost it
received.  The `assert count <= self.total_call_count` of line 173 is
modelled separately by `print_stacks_ok`. -/
def print_stacks (g : GMap) (stack : List String) (node : Function) (count : Int) (cost : Int) :
    List String :=
  if _h : node.str ∈ stack then []
  else if 0 < node.calls.length then
    (joinSemi (stack ++ [node.str]) ++ " " ++
        toString (pyRound (scaleOf node count * (node.cost : ℚ)))) ::
      node.calls.flatMap (fun f =>
        match _hf : getF g f.sig with
        | some fn => print_stacks g (stack ++ [node.str]) fn (alGet node.callcounts f)
            (pyRound (scaleOf node count * (alGet node.callcosts f : ℚ)))
        | none => [])
  else
    [joinSemi (stack ++ [node.str]) ++ " " ++ toString cost]
termination_by ((sigsOf g) \ stack.toFinset).card + (if node.str ∈ sigsOf g then 0 else 1)
decreasing_by
  have hm : fn.str ∈ sigsOf g := by
    unfold getF at _hf
    rcases Option.map_eq_some'.mp _hf with ⟨p, hp, hpn⟩
    have hmem := List.mem_of_find?_eq_some hp
    subst hpn
    simp only [sigsOf, List.mem_toFinset, List.mem_map]
    exact ⟨p, hmem, rfl⟩
  simp only [hm, if_pos]
  have hT : (stack ++ [node.str]).toFinset = stack.toFinset ∪ {node.str} := by
    simp [List.toFinset_append]
  rw [hT]
  by_cases hns : node.str ∈ sigsOf g
  · simp only [hns, if_pos]
    have h1 : sigsOf g \ (stack.toFinset ∪ {node.str}) =
        (sigsOf g \ stack.toFinset).erase node.str := by
      ext x
      simp only [Finset.mem_sdiff, Finset.mem_union, Finset.mem_erase, Finset.mem_singleton]
      tauto
    rw [h1]
    have h2 : node.str ∈ sigsOf g \ stack.toFinset := by
      simp only [Finset.mem_sdiff, List.mem_toFinset]
      exact ⟨hns, _h⟩
    have := Finset.card_erase_lt_of_mem h2
    omega
  · simp only [hns, if_neg, if_false]
    have h1 : sigsOf g \ (stack.toFinset ∪ {node.str}) = sigsOf g \ stack.toFinset := by
      ext x
      simp only [Finset.mem_sdiff, Finset.mem_union, Finset.mem_singleton]
      constructor
      · rintro ⟨hx, hx2⟩
        exact ⟨hx, fun hc => hx2 (Or.inl hc)⟩
      · rintro ⟨hx, hx2⟩
        refine ⟨hx, ?_⟩
        rintro (hc | hc)
        · exact hx2 hc
        · subst hc
          exact hns hx
    rw [h1]
    omega

/-- The root loop of `main` (source lines 315-318): start one traversal
at every function with no inbound calls and at least one callee, in
registry (insertion) order, with sentinel `count = 0`, `cost = 0`. -/
def main_traverse (g : GMap) : List String :=
  g.flatMap (fun p =>
    if p.2.total_call_count = 0 ∧ 0 < p.2.calls.length then print_stacks g [] p.2 0 0 else [])

/-- The assertion of source line 173 (`assert count <= self.total_call_count`),
checked along the same traversal as `print_stacks`: `true` iff the
assertion would hold at every node the traversal visits in the scaled
(non-leaf) branch. -/
def print_stacks_ok (g : GMap) (stack : List String) (node : Function) (count : Int) : Bool :=
  if _h : node.str ∈ stack then true
  else if 0 < node.calls.length then
    (!(decide (0 < node.total_call_count)) || decide (count ≤ node.total_call_count)) &&
      node.calls.all (fun f =>
        match _hf : getF g f.sig with
        | some fn => print_stacks_ok g (stack ++ [node.str]) fn (alGet node.callcounts f)
        | none => true)
  else true
termination_by ((sigsOf g) \ stack.toFinset).card + (if node.str ∈ sigsOf g then 0 else 1)
decreasing_by
  have hm : fn.str ∈ sigsOf g := by
    unfold getF at _hf
    rcases Option.map_eq_some'.mp _hf with ⟨p, hp, hpn⟩
    have hmem := List.mem_of_find?_eq_some hp
    subst hpn
    simp only [sigsOf, List.mem_toFinset, List.mem_map]
    exact ⟨p, hmem, rfl⟩
  simp only [hm, if_pos]
  have hT : (stack ++ [node.str]).toFinset = stack.toFinset ∪ {node.str} := by
    simp [List.toFinset_append]
  rw [hT]
  by_cases hns : node.str ∈ sigsOf g
  · simp only [hns, if_pos]
    have h1 : sigsOf g \ (stack.toFinset ∪ {node.str}) =
        (sigsOf g \ stack.toFinset).erase node.str := by
      ext x
      simp only [Finset.mem_sdiff, Finset.mem_union, Finset.mem_erase, Finset.mem_singleton]
      tauto
    rw [h1]
    have h2 : node.str ∈ sigsOf g \ stack.toFinset := by
      simp only [Finset.mem_sdiff, List.mem_toFinset]
      exact ⟨hns, _h⟩
    have := Finset.card_erase_lt_of_mem h2
    omega
  · simp only [hns, if_neg, if_false]
    have h1 : sigsOf g \ (stack.toFinset ∪ {node.str}) = sigsOf g \ stack.toFinset := by
      ext x
      simp only [Finset.mem_sdiff, Finset.mem_union, Finset.mem_singleton]
      constructor
      · rintro ⟨hx, hx2⟩
        exact ⟨hx, fun hc => hx2 (Or.inl hc)⟩
      · rintro ⟨hx, hx2⟩
        refine ⟨hx, ?_⟩
        rintro (hc | hc)
        · exact hx2 hc
        · subst hc
          exact hns hx
    rw [h1]
    omega

/-! ### Directive parser (`parse_body`/`parse_header`, source lines
204-307) -/

/-- Python's `str.strip()` with no argument: drop leading and trailing
whitespace (spaces, tabs, newlines, carriage returns). -/
def stripLine (s : String) : String :=
  String.mk (((s.toList.dropWhile Char.isWhitespace).reverse.dropWhile Char.isWhitespace).reverse)

/-- Python's `line.startswith("#")`: the first character is `#`. -/
def startsHash (s : String) : Bool :=
  match s.toList with
  | c :: _ => c == '#'
  | [] => false

/-- Prefix match of `([a-z]+)=(.*)` (source line 247): a maximal
nonempty run of lowercase letters followed directly by `=`; the value is
everything after the first `=`.  (Greedy `[a-z]+` with backtracking
matches exactly when the maximal run is followed by `=`, since every
shorter run is followed by a lowercase letter.) -/
def matchKeyValue (line : String) : Option (String × String) :=
  let cs := line.toList
  let key := cs.takeWhile (fun c => 'a' ≤ c && c ≤ 'z')
  let rest := cs.dropWhile (fun c => 'a' ≤ c && c ≤ 'z')
  if key.isEmpty then none
  else
    match rest with
    | '=' :: tail => some (String.mk key, String.mk tail)
    | _ => none

/-- Prefix match of `[0-9\-\+\*]+` (source line 269): the line starts
with a digit, sign, or `*`. -/
def isCostLine (line : String) : Bool :=
  match line.toList with
  | [] => false
  | c :: _ => c.isDigit || c == '-' || c == '+' || c == '*'

/-- Prefix match of `([a-z]+): (.*)` (source line 300). -/
def matchHeaderLine (line : String) : Option (String × String) :=
  let cs := line.toList
  let key := cs.takeWhile (fun c => 'a' ≤ c && c ≤ 'z')
  let rest := cs.dropWhile (fun c => 'a' ≤ c && c ≤ 'z')
  if key.isEmpty then none
  else
    match rest with
    | ':' :: ' ' :: tail => some (String.mk key, String.mk tail)
    | _ => none

/-- The parser's `state` dict. -/
abbrev PState := List (String × String)

def stGet (st : PState) (k : String) : Option String :=
  (st.find? (fun e => e.1 == k)).map Prod.snd

def stSet : PState → String → String → PState
  | [], k, v => [(k, v)]
  | e :: rest, k, v => if e.1 == k then (k, v) :: rest else e :: stSet rest k v

/-- Python's `del state[k]` (applied only after an `in` check in the
source, so deleting an absent key — a no-op here — never happens). -/
def stDel (st : PState) (k : String) : PState :=
  st.filter (fun e => !(e.1 == k))

/-- Dict read modelling Python's raising `state[k]` access. -/
def keyE (st : PState) (k : String) : Except String String :=
  match stGet st k with
  | some v => .ok v
  | none => .error ("KeyError: " ++ k)

/-- Python `int(s)` as used here. -/
def intE (s : String) : Except String Int :=
  match s.toInt? with
  | some n => .ok n
  | none => .error ("invalid literal for int: " ++ s)

/-- `calls(state, param)` (source lines 204-209): split the parameter on
spaces, resolve caller from `ob`/`fl`/`fn` and callee from
`cob`/`cfi`/`cfn`, and register the call edge with `int(costs[0])`. -/
def callsF (gs : Globs) (st : PState) (param : String) : Except String Globs := do
  let costs := param.splitOn " "
  let obv ← keyE st "ob"
  let flv ← keyE st "fl"
  let fnv ← keyE st "fn"
  let (gs1, callerSig) ← lookup_f gs obv flv fnv
  let cobv ← keyE st "cob"
  let cfiv ← keyE st "cfi"
  let cfnv ← keyE st "cfn"
  let (gs2, calleeSig) ← lookup_f gs1 cobv cfiv cfnv
  let c ← intE (costs.headD "")
  pure { gs2 with functions := add_call gs2.functions callerSig calleeSig c }

/-- `callcost(state, param)` (source lines 212-217): like `calls` but
feeds `int(costs[1])` to `add_callcost`. -/
def callcostF (gs : Globs) (st : PState) (param : String) : Except String Globs := do
  let costs := param.splitOn " "
  let obv ← keyE st "ob"
  let flv ← keyE st "fl"
  let fnv ← keyE st "fn"
  let (gs1, callerSig) ← lookup_f gs obv flv fnv
  let cobv ← keyE st "cob"
  let cfiv ← keyE st "cfi"
  let cfnv ← keyE st "cfn"
  let (gs2, calleeSig) ← lookup_f gs1 cobv cfiv cfnv
  let c ← intE (costs.getD 1 "")
  pure { gs2 with functions := add_callcost gs2.functions callerSig calleeSig c }

/-- `cost(state, param)` (source lines 220-224): the second
whitespace-separated field is added to the self cost of the function
identified by the current `ob`/`fl`/`fn`. -/
def costF (gs : Globs) (st : PState) (param : String) : Except String Globs := do
  let costs := param.splitOn " "
  let obv ← keyE st "ob"
  let flv ← keyE st "fl"
  let fnv ← keyE st "fn"
  let (gs1, funcSig) ← lookup_f gs obv flv fnv
  let c ← intE (costs.getD 1 "")
  pure { gs1 with functions := add_cost gs1.functions funcSig c }

/-- The directive branch of `parse_body`'s loop (source lines 247-266):
apply the `cfl`→`cfi` alias, store `state[key] = value`, resolve `fi`/`fe`
values through the file table (side effect only), and on `calls` apply
the `cob`/`cfi` defaults, register the edge, and raise the in-call flag. -/
def handle_directive (gs : Globs) (st : PState) (in_call : Bool) (key0 value : String) :
    Except String (Globs × PState × Bool) :=
  let key := if key0 == "cfl" then "cfi" else key0
  let st1 := stSet st key value
  if key == "fi" || key == "fe" then
    match lookup gs.fl value with
    | .ok (flT, _) => .ok ({ gs with fl := flT }, st1, in_call)
    | .error e => .error e
  else if key == "calls" then
    let st2 :=
      match stGet st1 "cob", stGet st1 "ob" with
      | none, some o => stSet st1 "cob" o
      | _, _ => st1
    let st3 :=
      match stGet st2 "cfi", stGet st2 "fl" with
      | none, some fv => stSet st2 "cfi" fv
      | _, _ => st2
    match callsF gs st3 value with
    | .ok gs2 => .ok (gs2, st3, true)
    | .error e => .error e
  else .ok (gs, st1, in_call)

/-- The cost-record branch of `parse_body`'s loop (source lines 269-282):
while the in-call flag is up the line is the pending call's inclusive
cost, the flag is cleared and `cob`/`cfi` are deleted from the context;
otherwise the line is self cost of the current caller. -/
def handle_cost (gs : Globs) (st : PState) (in_call : Bool) (line : String) :
    Except String (Globs × PState × Bool) :=
  if in_call then
    match callcostF gs st line with
    | .ok gs2 => .ok (gs2, stDel (stDel st "cob") "cfi", false)
    | .error e => .error e
  else
    match costF gs st line with
    | .ok gs2 => .ok (gs2, st, in_call)
    | .error e => .error e

/-- The loop of `parse_body` (source lines 238-285): skip comments and
blank lines, dispatch `key=value` lines and cost-record lines, and stop —
leaving the line in the queue — at the first line matching neither. -/
def parse_body_loop : List String → PState → Bool → Globs → Except String (Globs × List String)
  | [], _, _, gs => .ok (gs, [])
  | raw :: rest, st, in_call, gs =>
    let line := stripLine raw
    if startsHash line then parse_body_loop rest st in_call gs
    else if line.length = 0 then parse_body_loop rest st in_call gs
    else
      match matchKeyValue line with
      | some (k, v) =>
        match handle_directive gs st in_call k v with
        | .ok (gs2, st2, ic2) => parse_body_loop rest st2 ic2 gs2
        | .error e => .error e
      | none =>
        if isCostLine line then
          match handle_cost gs st in_call line with
          | .ok (gs2, st2, ic2) => parse_body_loop rest st2 ic2 gs2
          | .error e => .error e
        else .ok (gs, raw :: rest)

/-- `parse_body(queue)` (source lines 227-285), with its initial context
`{ob: "???", fl: "???", fn: "???"}` and lowered in-call flag. -/
def parse_body (queue : List String) (gs : Globs) : Except String (Globs × List String) :=
  parse_body_loop queue [("ob", "???"), ("fl", "???"), ("fn", "???")] false gs

/-- `parse_header(queue)` (source lines 288-307): consume comment, blank
and `key: value` lines; stop (without consuming) at the first other
line.  The header table itself is discarded by the source. -/
def parse_header : List String → List String
  | [] => []
  | raw :: rest =>
    let line := stripLine raw
    if startsHash line then parse_header rest
    else if line.length = 0 then parse_header rest
    else
      match matchHeaderLine line with
      | some _ => parse_header rest
      | none => raw :: rest

/-- `main(queue)` (source lines 310-318): header, body, header, then the
root traversal over the completed registry. -/
def mainF (queue : List String) : Except String (List String) :=
  match parse_body (parse_header queue) Globs.empty with
  | .ok (gs, rest2) =>
    let _ := parse_header rest2
    .ok (main_traverse gs.functions)
  | .error e => .error e

/-! ### Well-formedness invariants of the registry (used for claim C10) -/

/-- The registry as built by `lookup_f`: keys are unique and each entry
is stored under its node's display signature. -/
def WFMap (g : GMap) : Prop :=
  (g.map Prod.fst).Nodup ∧ ∀ p ∈ g, p.1 = p.2.ident.sig

/-- Count invariants maintained by model construction when every count
fed to `add_call` is non-negative: inbound totals are non-negative, each
per-edge accumulated count is non-negative and bounded by the inbound
total of every node carrying the edge's target signature, and every
accumulator key's signature is present in the registry. -/
def CountsOk (g : GMap) : Prop :=
  (∀ p ∈ g, (0:Int) ≤ p.2.total_call_count) ∧
  (∀ p ∈ g, ∀ e ∈ p.2.callcounts, (0:Int) ≤ e.2 ∧
    ∀ q ∈ g, q.2.ident.sig = e.1.sig → e.2 ≤ q.2.total_call_count) ∧
  (∀ p ∈ g, ∀ e ∈ p.2.callcounts, ∃ q ∈ g, q.1 = e.1.sig)

instance (g : GMap) : Decidable (WFMap g) := by
  unfold WFMap
  infer_instance

instance (g : GMap) : Decidable (CountsOk g) := by
  unfold CountsOk
  infer_instance

/-! ### Concrete graphs used by individual claims -/

/-- Counterexample graph for claim C1: root `A` (self cost 3) calls `C`
once with inclusive cost 5; `C` (self cost 7) calls leaf `D` once with
inclusive cost 2.  `C` has exactly one caller and is invoked exactly
once. -/
def funcA : Function :=
  ⟨⟨"o", "a.c", "A"⟩, [⟨"o", "c.c", "C"⟩], [(⟨"o", "c.c", "C"⟩, 5)], [(⟨"o", "c.c", "C"⟩, 1)], 3, 0, 0⟩

def funcC : Function :=
  ⟨⟨"o", "c.c", "C"⟩, [⟨"o", "d.c", "D"⟩], [(⟨"o", "d.c", "D"⟩, 2)], [(⟨"o", "d.c", "D"⟩, 1)], 7, 5, 1⟩

def funcD : Function :=
  ⟨⟨"o", "d.c", "D"⟩, [], [], [], 4, 2, 1⟩

def gC1 : GMap := [("a.c#A", funcA), ("c.c#C", funcC), ("d.c#D", funcD)]

/-- Cyclic graph for claim C2: `A` calls `B` once (inclusive cost 20),
`B` calls `A` once (inclusive cost 30) — the synthetic `A→B→A` cycle. -/
def funcCycA : Function :=
  ⟨⟨"o", "f", "A"⟩, [⟨"o", "f", "B"⟩], [(⟨"o", "f", "B"⟩, 20)], [(⟨"o", "f", "B"⟩, 1)], 10, 30, 1⟩

def funcCycB : Function :=
  ⟨⟨"o", "f", "B"⟩, [⟨"o", "f", "A"⟩], [(⟨"o", "f", "A"⟩, 30)], [(⟨"o", "f", "A"⟩, 1)], 40, 20, 1⟩

def gC2 : GMap := [("f#A", funcCycA), ("f#B", funcCycB)]

/-! ### Basic registry and accumulator lemmas -/

lemma getF_cons (p : String × Function) (rest : GMap) (s2 : String) :
    getF (p :: rest) s2 = if p.1 = s2 then some p.2 else getF rest s2 := by
  by_cases h : p.1 = s2
  · simp [getF, List.find?_cons_of_pos, h]
  · rw [if_neg h]
    unfold getF
    rw [List.find?_cons_of_neg]
    simpa using h

lemma setF_cons_hit (p : String × Function) (rest : GMap) (s : String) (n : Function)
    (h : p.1 = s) : setF (p :: rest) s n = (s, n) :: rest := by
  simp [setF, h]

lemma setF_cons_miss (p : String × Function) (rest : GMap) (s : String) (n : Function)
    (h : ¬ p.1 = s) : setF (p :: rest) s n = p :: setF rest s n := by
  simp [setF, h]

lemma getF_setF_self (g : GMap) (s : String) (n : Function) :
    getF (setF g s n) s = some n := by
  induction g with
  | nil => simp [setF, getF_cons]
  | cons p rest ih =>
    by_cases h : p.1 = s
    · rw [setF_cons_hit p rest s n h, getF_cons]
      simp
    · rw [setF_cons_miss p rest s n h, getF_cons, if_neg h]
      exact ih

lemma getF_setF_ne (g : GMap) (s s2 : String) (n : Function) (h : s2 ≠ s) :
    getF (setF g s n) s2 = getF g s2 := by
  induction g with
  | nil =>
    simp only [setF, getF_cons]
    rw [if_neg (fun hc => h hc.symm)]
  | cons p rest ih =>
    by_cases hp : p.1 = s
    · rw [setF_cons_hit p rest s n hp, getF_cons, getF_cons]
      rw [if_neg (fun hc => h hc.symm), if_neg (fun hc => h (hp ▸ hc).symm)]
    · rw [setF_cons_miss p rest s n hp, getF_cons, getF_cons, ih]

lemma getF_some_mem {g : GMap} {s : String} {n : Function}
    (h : getF g s = some n) : (s, n) ∈ g := by
  unfold getF at h
  rcases Option.map_eq_some'.mp h with ⟨p, hp, hpn⟩
  have hmem := List.mem_of_find?_eq_some hp
  have hkey : p.1 = s := by simpa using List.find?_some hp
  have : p = (s, n) := by
    cases p
    simp only at hkey hpn
    simp [hkey, hpn]
  rwa [this] at hmem

lemma getF_append_fresh {g : GMap} {s : String} (n : Function)
    (h : getF g s = none) : getF (g ++ [(s, n)]) s = some n := by
  unfold getF at h ⊢
  have hfind : g.find? (fun p => p.1 == s) = none := by
    cases hg : g.find? (fun p => p.1 == s) with
    | none => rfl
    | some p => rw [hg] at h; simp at h
  rw [List.find?_append, hfind]
  simp

lemma alGet_cons (e : Ident × Int) (rest : List (Ident × Int)) (j : Ident) :
    alGet (e :: rest) j = if e.1 = j then e.2 else alGet rest j := by
  by_cases h : e.1 = j
  · simp [alGet, List.find?_cons_of_pos, h]
  · rw [if_neg h]
    unfold alGet
    rw [List.find?_cons_of_neg]
    simpa using h

lemma alSet_cons_hit (e : Ident × Int) (rest : List (Ident × Int)) (i : Ident) (v : Int)
    (h : e.1 = i) : alSet (e :: rest) i v = (i, v) :: rest := by
  simp [alSet, h]

lemma alSet_cons_miss (e : Ident × Int) (rest : List (Ident × Int)) (i : Ident) (v : Int)
    (h : ¬ e.1 = i) : alSet (e :: rest) i v = e :: alSet rest i v := by
  simp [alSet, h]

lemma alGet_alSet_self (l : List (Ident × Int)) (i : Ident) (v : Int) :
    alGet (alSet l i v) i = v := by
  induction l with
  | nil => simp [alSet, alGet_cons]
  | cons e rest ih =>
    by_cases h : e.1 = i
    · rw [alSet_cons_hit e rest i v h, alGet_cons]
      simp
    · rw [alSet_cons_miss e rest i v h, alGet_cons, if_neg h]
      exact ih

lemma alGet_alSet_ne (l : List (Ident × Int)) (i j : Ident) (v : Int) (h : j ≠ i) :
    alGet (alSet l i v) j = alGet l j := by
  induction l with
  | nil =>
    simp only [alSet, alGet_cons]
    rw [if_neg (fun hc => h hc.symm)]
  | cons e rest ih =>
    by_cases he : e.1 = i
    · rw [alSet_cons_hit e rest i v he, alGet_cons, alGet_cons]
      rw [if_neg (fun hc => h hc.symm), if_neg (fun hc => h (he ▸ hc).symm)]
    · rw [alSet_cons_miss e rest i v he, alGet_cons, alGet_cons, ih]

/-! ### Branch lemmas for the traversal -/

lemma print_stacks_cycle (g : GMap) (stack : List String) (node : Function)
    (count cost : Int) (h : node.str ∈ stack) :
    print_stacks g stack node count cost = [] := by
  rw [print_stacks.eq_def]
  simp [h]

lemma print_stacks_leaf (g : GMap) (stack : List String) (node : Function)
    (count cost : Int) (h : ¬ node.str ∈ stack) (hleaf : node.calls = []) :
    print_stacks g stack node count cost =
      [joinSemi (stack ++ [node.str]) ++ " " ++ toString cost] := by
  rw [print_stacks.eq_def]
  simp [h, hleaf]

lemma print_stacks_branch (g : GMap) (stack : List String) (node : Function)
    (count cost : Int) (h : ¬ node.str ∈ stack) (hcalls : 0 < node.calls.length) :
    print_stacks g stack node count cost =
      (joinSemi (stack ++ [node.str]) ++ " " ++
          toString (pyRound (scaleOf node count * (node.cost : ℚ)))) ::
        node.calls.flatMap (fun f =>
          match _hf : getF g f.sig with
          | some fn => print_stacks g (stack ++ [node.str]) fn (alGet node.callcounts f)
              (pyRound (scaleOf node count * (alGet node.callcosts f : ℚ)))
          | none => []) := by
  rw [print_stacks.eq_def]
  simp [h, hcalls]

/-- Evaluate the dependent match on a registry lookup once its result is
known. -/
lemma dep_getF_some {g : GMap} {s : String} {fn : Function}
    (h : getF g s = some fn) (F : Function → List String) :
    (match _hf : getF g s with
      | some m => F m
      | none => []) = F fn := by
  split
  · rename_i m heq
    rw [h] at heq
    injection heq with h2
    rw [h2]
  · rename_i heq
    rw [h] at heq
    exact absurd heq (by simp)

lemma pyRound_intCast (k : ℤ) : pyRound (k : ℚ) = k := by
  unfold pyRound
  rw [Int.floor_intCast]
  norm_num

lemma pyRound_one_mul_int (k : ℤ) : pyRound (1 * (k : ℚ)) = k := by
  rw [one_mul]
  exact pyRound_intCast k

/-! ### Claims C4, C9, C3 -/

/-- Claim C4: on a fresh resolver table, `resolve(T, "(1) foo")` returns
`"foo"` and stores it; a subsequent `resolve(T, "(1)")` also returns
`"foo"`; a later definition token `"(1) bar"` returns `"bar"` without
overwriting the stored entry for token 1; and `resolve(T, "(2)")` with
no prior definition of token 2 raises the undefined-reference error
naming the token. -/
theorem claim_C4 :
    lookup [] "(1) foo" = .ok ([("(1)", "foo")], "foo") ∧
    lookup [("(1)", "foo")] "(1)" = .ok ([("(1)", "foo")], "foo") ∧
    lookup [("(1)", "foo")] "(1) bar" = .ok ([("(1)", "foo")], "bar") ∧
    lookup [("(1)", "foo")] "(2)" = .error "(2) not found" := by
  refine ⟨?_, ?_, ?_, ?_⟩ <;> rfl

/-- Claim C9: looking up or creating a function node is keyed solely by
the display signature `file#name`: two identities with equal file and
name but different object strings resolve to the same single node, and
the node retains the object string from its first creation (the second
`lookup_f` changes nothing at all).  The `splitRef _ = none` hypotheses
say the four names are plain strings, not `(N)` tokens, so the resolver
returns them verbatim. -/
theorem claim_C9 (gs : Globs) (o1 o2 f n : String)
    (ho1 : splitRef o1 = none) (ho2 : splitRef o2 = none)
    (hf : splitRef f = none) (hn : splitRef n = none)
    (hfresh : getF gs.functions (f ++ "#" ++ n) = none) :
    ∃ gs1, lookup_f gs o1 f n = .ok (gs1, f ++ "#" ++ n) ∧
      gs1.functions = gs.functions ++ [(f ++ "#" ++ n, Function.init o1 f n)] ∧
      lookup_f gs1 o2 f n = .ok (gs1, f ++ "#" ++ n) ∧
      getF gs1.functions (f ++ "#" ++ n) = some (Function.init o1 f n) := by
  refine ⟨{ gs with functions := gs.functions ++ [(f ++ "#" ++ n, Function.init o1 f n)] }, ?_, rfl, ?_, ?_⟩
  · simp [lookup_f, lookup, ho1, hf, hn, Function.str, Function.init, Ident.sig, hfresh]
  · have hgot : getF (gs.functions ++ [(f ++ "#" ++ n, Function.init o1 f n)]) (f ++ "#" ++ n)
        = some (Function.init o1 f n) := getF_append_fresh _ hfresh
    simp only [Function.init] at hgot
    simp [lookup_f, lookup, ho2, hf, hn, Function.str, Function.init, Ident.sig, hgot]
  · exact getF_append_fresh _ hfresh

/-- Witness for C9 at concrete inputs. -/
theorem claim_C9_witness :
    ∃ gs1, lookup_f Globs.empty "obj1" "file.c" "main" = .ok (gs1, "file.c" ++ "#" ++ "main") ∧
      gs1.functions = Globs.empty.functions ++ [("file.c" ++ "#" ++ "main", Function.init "obj1" "file.c" "main")] ∧
      lookup_f gs1 "obj2" "file.c" "main" = .ok (gs1, "file.c" ++ "#" ++ "main") ∧
      getF gs1.functions ("file.c" ++ "#" ++ "main") = some (Function.init "obj1" "file.c" "main") :=
  claim_C9 Globs.empty "obj1" "obj2" "file.c" "main" rfl rfl rfl rfl rfl

/-- Claim C3: registering a self-identity call edge (`caller == callee`
by structural identity) via `add_call` followed by `add_callcost`
appends the callee to the caller's `calls` sequence at most once, and
leaves `callCount`, `callCost`, `totalInboundCount` and
`totalInboundCost` of every node unchanged, for any count/cost values.
The hypothesis `hz` states that a callee absent from `calls` has no
accumulated count or cost — true of every node the program builds, since
`calls` and the accumulator keys are only ever extended together. -/
theorem claim_C3 (g : GMap) (s : String) (node : Function) (count cost : Int)
    (hget : getF g s = some node)
    (hz : node.ident ∉ node.calls →
      alGet node.callcounts node.ident = 0 ∧ alGet node.callcosts node.ident = 0) :
    ((getF (add_call g s s count) s).map Function.calls =
      some (if node.ident ∈ node.calls then node.calls else node.calls ++ [node.ident])) ∧
    add_callcost (add_call g s s count) s s cost = add_call g s s count ∧
    (∀ s2 n2, getF (add_callcost (add_call g s s count) s s cost) s2 = some n2 →
      ∃ n0, getF g s2 = some n0 ∧
        (∀ i, alGet n2.callcounts i = alGet n0.callcounts i) ∧
        (∀ i, alGet n2.callcosts i = alGet n0.callcosts i) ∧
        n2.total_call_count = n0.total_call_count ∧
        n2.total_call_cost = n0.total_call_cost) := by
  by_cases hmem : node.ident ∈ node.calls
  · have hcall : add_call g s s count = g := by
      simp [add_call, hget, hmem]
    have hcost : add_callcost g s s cost = g := by
      simp [add_callcost, hget]
    refine ⟨?_, ?_, ?_⟩
    · simp [hcall, hget, hmem]
    · rw [hcall, hcost]
    · intro s2 n2 h2
      rw [hcall, hcost] at h2
      exact ⟨n2, h2, fun i => rfl, fun i => rfl, rfl, rfl⟩
  · obtain ⟨hzcount, hzcost⟩ := hz hmem
    set node2 : Function := { node with
      calls := node.calls ++ [node.ident],
      callcosts := alSet node.callcosts node.ident 0,
      callcounts := alSet node.callcounts node.ident 0 } with hnode2
    have hcall : add_call g s s count = setF g s node2 := by
      simp [add_call, hget, hmem]
    have hget2 : getF (setF g s node2) s = some node2 := getF_setF_self g s node2
    have hcost : add_callcost (setF g s node2) s s cost = setF g s node2 := by
      simp [add_callcost, hget2]
    refine ⟨?_, ?_, ?_⟩
    · simp [hcall, hget2, hmem]
    · rw [hcall, hcost]
    · intro s2 n2 h2
      rw [hcall, hcost] at h2
      by_cases hs2 : s2 = s
      · subst hs2
        rw [hget2] at h2
        cases h2
        refine ⟨node, hget, ?_, ?_, rfl, rfl⟩
        · intro i
          by_cases hi : i = node.ident
          · subst hi
            simp only [hnode2, alGet_alSet_self]
            exact hzcount.symm
          · simp only [hnode2, alGet_alSet_ne _ _ _ _ hi]
        · intro i
          by_cases hi : i = node.ident
          · subst hi
            simp only [hnode2, alGet_alSet_self]
            exact hzcost.symm
          · simp only [hnode2, alGet_alSet_ne _ _ _ _ hi]
      · rw [getF_setF_ne g s s2 node2 hs2] at h2
        exact ⟨n2, h2, fun i => rfl, fun i => rfl, rfl, rfl⟩

/-- Witness for C3 at concrete inputs: a registry with one function that
calls itself, count 3 and cost 7. -/
theorem claim_C3_witness :
    add_callcost (add_call [("f#a", Function.init "o" "f" "a")] "f#a" "f#a" 3) "f#a" "f#a" 7 =
      add_call [("f#a", Function.init "o" "f" "a")] "f#a" "f#a" 3 :=
  (claim_C3 [("f#a", Function.init "o" "f" "a")] "f#a" (Function.init "o" "f" "a") 3 7 rfl
    (fun _ => ⟨rfl, rfl⟩)).2.1

/-! ### Claims C6, C5, C2, C1 -/

lemma pyRound_zero : pyRound 0 = 0 := by
  simpa using pyRound_intCast 0

lemma joinSemi_single (x : String) : joinSemi [x] = x := rfl

lemma joinSemi_pair (x y : String) : joinSemi [x, y] = x ++ ";" ++ y := rfl

/-- Claim C6: a node visited with an empty `calls` sequence emits
exactly one line, the semicolon-joined path followed by the inclusive
cost received along the edge that reached it; the leaf's own self cost
is never consulted — replacing it by any other value leaves the output
unchanged. -/
theorem claim_C6 (g : GMap) (stack : List String) (node : Function) (count cost c2 : Int)
    (h : ¬ node.str ∈ stack) (hleaf : node.calls = []) :
    print_stacks g stack node count cost =
      [joinSemi (stack ++ [node.str]) ++ " " ++ toString cost] ∧
    print_stacks g stack { node with cost := c2 } count cost =
      print_stacks g stack node count cost := by
  constructor
  · exact print_stacks_leaf g stack node count cost h hleaf
  · rw [print_stacks_leaf g stack { node with cost := c2 } count cost h hleaf,
       print_stacks_leaf g stack node count cost h hleaf]
    rfl

/-- Witness for C6 at concrete inputs: a leaf with self cost 5 visited
with received cost 9 prints the received cost, and changing its self
cost to 7 changes nothing. -/
theorem claim_C6_witness :
    print_stacks [] [] ⟨⟨"o", "f", "a"⟩, [], [], [], 5, 0, 0⟩ 4 9 =
      [joinSemi ([] ++ [(⟨⟨"o", "f", "a"⟩, [], [], [], 5, 0, 0⟩ : Function).str]) ++ " " ++
        toString (9 : ℤ)] ∧
    print_stacks [] [] { (⟨⟨"o", "f", "a"⟩, [], [], [], 5, 0, 0⟩ : Function) with cost := 7 } 4 9 =
      print_stacks [] [] ⟨⟨"o", "f", "a"⟩, [], [], [], 5, 0, 0⟩ 4 9 :=
  claim_C6 [] [] ⟨⟨"o", "f", "a"⟩, [], [], [], 5, 0, 0⟩ 4 9 7 (by simp) rfl

/-- Claim C5: the collapser starts a traversal exactly at functions with
`total_call_count = 0` and a non-empty `calls` sequence; such a root
contributes at least one output line, while a graph whose functions all
have empty `calls` produces no output at all, whatever their self
costs. -/
theorem claim_C5 :
    (∀ (g : GMap) (node : Function), 0 < node.calls.length →
      print_stacks g [] node 0 0 ≠ []) ∧
    (∀ g : GMap, main_traverse g =
      g.flatMap (fun p =>
        if p.2.total_call_count = 0 ∧ 0 < p.2.calls.length
        then print_stacks g [] p.2 0 0 else [])) ∧
    (∀ g : GMap, (∀ p ∈ g, p.2.calls.length = 0) → main_traverse g = []) := by
  refine ⟨?_, fun g => rfl, ?_⟩
  · intro g node hcalls
    rw [print_stacks_branch g [] node 0 0 (by simp) hcalls]
    simp
  · intro g hall
    unfold main_traverse
    refine List.flatMap_eq_nil_iff.mpr ?_
    intro p hp
    rw [if_neg]
    rintro ⟨_, h2⟩
    have := hall p hp
    omega

/-- Witness for C5 at concrete inputs: a root with one callee emits
output; a one-node graph whose node has self cost 5 and no callees emits
nothing. -/
theorem claim_C5_witness :
    print_stacks [] []
      ⟨⟨"o", "f", "r"⟩, [⟨"o", "f", "x"⟩], [(⟨"o", "f", "x"⟩, 1)], [(⟨"o", "f", "x"⟩, 1)], 2, 0, 0⟩
      0 0 ≠ [] ∧
    main_traverse [("f#s", ⟨⟨"o", "f", "s"⟩, [], [], [], 5, 0, 0⟩)] = [] :=
  ⟨claim_C5.1 [] _ (by decide), claim_C5.2.2 _ (by decide)⟩

/-- Claim C2: the depth-first emission walk terminates on every finite
graph (`print_stacks` is a total function, defined by well-founded
recursion on the registry signatures not yet on the path stack): a node
whose display signature is already on the path stack returns immediately
with no output, and on the synthetic cyclic graph `A→B→A` the traversal
started at `A` visits `B` once and returns without revisiting `A` —
producing exactly one line for `A` and one for `B`. -/
theorem claim_C2 :
    (∀ (g : GMap) (stack : List String) (node : Function) (count cost : Int),
      node.str ∈ stack → print_stacks g stack node count cost = []) ∧
    print_stacks gC2 [] funcCycA 0 0 = ["f#A 0", "f#A;f#B 40"] := by
  constructor
  · exact fun g stack node count cost h => print_stacks_cycle g stack node count cost h
  · have hB : print_stacks gC2 ["f#A"] funcCycB 1 0 = ["f#A;f#B 40"] := by
      rw [print_stacks_branch gC2 ["f#A"] funcCycB 1 0 (by decide) (by decide)]
      have hsc : scaleOf funcCycB 1 = 1 := by norm_num [scaleOf, funcCycB]
      rw [show funcCycB.calls = [⟨"o", "f", "A"⟩] from rfl]
      simp only [List.flatMap_cons, List.flatMap_nil, List.append_nil]
      rw [dep_getF_some (show getF gC2 (Ident.sig ⟨"o", "f", "A"⟩) = some funcCycA from rfl)]
      rw [print_stacks_cycle gC2 _ funcCycA _ _ (by decide)]
      rw [hsc, show ((funcCycB.cost : ℚ)) = (((40 : ℤ)) : ℚ) from rfl, pyRound_one_mul_int]
      decide
    rw [print_stacks_branch gC2 [] funcCycA 0 0 (by decide) (by decide)]
    have hsc : scaleOf funcCycA 0 = 0 := by norm_num [scaleOf, funcCycA]
    rw [show funcCycA.calls = [⟨"o", "f", "B"⟩] from rfl]
    simp only [List.flatMap_cons, List.flatMap_nil, List.append_nil]
    rw [dep_getF_some (show getF gC2 (Ident.sig ⟨"o", "f", "B"⟩) = some funcCycB from rfl)]
    rw [hsc]
    rw [show alGet funcCycA.callcounts ⟨"o", "f", "B"⟩ = (1 : ℤ) from rfl]
    rw [show ((alGet funcCycA.callcosts ⟨"o", "f", "B"⟩ : ℚ)) = (((20 : ℤ)) : ℚ) from rfl]
    rw [zero_mul, zero_mul, pyRound_zero]
    rw [show (([] : List String) ++ [funcCycA.str]) = ["f#A"] from rfl]
    rw [hB]
    decide

/-- Witness for C2 at concrete inputs: a node whose signature is already
on the stack emits nothing. -/
theorem claim_C2_witness :
    print_stacks [] ["f#A"] funcCycA 0 0 = [] :=
  claim_C2.1 [] ["f#A"] funcCycA 0 0 (by decide)

/-- Claim C1 is false as stated: in `gC1` the callee `C` has exactly one
caller `A` and is invoked exactly once via a single call edge with
inclusive cost `K = 5` (recorded in `A`'s accumulators and `C`'s
inbound total), yet the line emitted for the path entering `C` carries
cost 7 — `C` is not a leaf, so its line reports `C`'s own (scale-1)
self cost, not the edge's inclusive cost. -/
theorem claim_C1_counterexample :
    print_stacks gC1 [] funcA 0 0 =
      ["a.c#A 3", "a.c#A;c.c#C 7", "a.c#A;c.c#C;d.c#D 2"] ∧
    funcC.total_call_count = 1 ∧
    alGet funcA.callcounts funcC.ident = 1 ∧
    alGet funcA.callcosts funcC.ident = 5 ∧
    ∀ l ∈ print_stacks gC1 [] funcA 0 0, l ≠ "a.c#A;c.c#C 5" := by
  have hD : print_stacks gC1 ["a.c#A", "c.c#C"] funcD 1 2 = ["a.c#A;c.c#C;d.c#D 2"] := by
    rw [print_stacks_leaf gC1 _ funcD 1 2 (by decide) rfl]
    decide
  have hC : print_stacks gC1 ["a.c#A"] funcC 1 5 = ["a.c#A;c.c#C 7", "a.c#A;c.c#C;d.c#D 2"] := by
    rw [print_stacks_branch gC1 ["a.c#A"] funcC 1 5 (by decide) (by decide)]
    have hsc : scaleOf funcC 1 = 1 := by norm_num [scaleOf, funcC]
    rw [show funcC.calls = [⟨"o", "d.c", "D"⟩] from rfl]
    simp only [List.flatMap_cons, List.flatMap_nil, List.append_nil]
    rw [dep_getF_some (show getF gC1 (Ident.sig ⟨"o", "d.c", "D"⟩) = some funcD from rfl)]
    rw [hsc]
    rw [show alGet funcC.callcounts ⟨"o", "d.c", "D"⟩ = (1 : ℤ) from rfl]
    rw [show ((alGet funcC.callcosts ⟨"o", "d.c", "D"⟩ : ℚ)) = (((2 : ℤ)) : ℚ) from rfl]
    rw [show ((funcC.cost : ℚ)) = (((7 : ℤ)) : ℚ) from rfl]
    rw [pyRound_one_mul_int, pyRound_one_mul_int]
    rw [show ((["a.c#A"] : List String) ++ [funcC.str]) = ["a.c#A", "c.c#C"] from rfl]
    rw [hD]
    decide
  have hA : print_stacks gC1 [] funcA 0 0 =
      ["a.c#A 3", "a.c#A;c.c#C 7", "a.c#A;c.c#C;d.c#D 2"] := by
    rw [print_stacks_branch gC1 [] funcA 0 0 (by decide) (by decide)]
    have hsc : scaleOf funcA 0 = 1 := by norm_num [scaleOf, funcA]
    rw [show funcA.calls = [⟨"o", "c.c", "C"⟩] from rfl]
    simp only [List.flatMap_cons, List.flatMap_nil, List.append_nil]
    rw [dep_getF_some (show getF gC1 (Ident.sig ⟨"o", "c.c", "C"⟩) = some funcC from rfl)]
    rw [hsc]
    rw [show alGet funcA.callcounts ⟨"o", "c.c", "C"⟩ = (1 : ℤ) from rfl]
    rw [show ((alGet funcA.callcosts ⟨"o", "c.c", "C"⟩ : ℚ)) = (((5 : ℤ)) : ℚ) from rfl]
    rw [show ((funcA.cost : ℚ)) = (((3 : ℤ)) : ℚ) from rfl]
    rw [pyRound_one_mul_int, pyRound_one_mul_int]
    rw [show (([] : List String) ++ [funcA.str]) = ["a.c#A"] from rfl]
    rw [hC]
    decide
  refine ⟨hA, rfl, rfl, rfl, ?_⟩
  rw [hA]
  decide

/-- Claim C1, amended: if callee `C` has exactly one caller `P` and is
invoked exactly once via a single call edge with inclusive cost `K`,
then — provided `C` is a leaf and the walk enters it from `P` with
`P`'s scale equal to 1, as happens when `P` is a root — the cost printed
on the line for the path entering `C` equals `K` exactly.  (The received
count 1 equals `C`'s total inbound count 1, so `C`'s own scale would be
1, but for a leaf the received inclusive cost is printed directly.) -/
theorem claim_C1 (g : GMap) (P C : Function) (K : Int)
    (hPcalls : P.calls = [C.ident])
    (hPcount : alGet P.callcounts C.ident = 1)
    (hPcost : alGet P.callcosts C.ident = K)
    (hProot : P.total_call_count = 0)
    (hgetC : getF g C.ident.sig = some C)
    (hCleaf : C.calls = [])
    (_hCtot : C.total_call_count = 1)
    (hne : C.str ≠ P.str) :
    print_stacks g [] P 0 0 =
      [P.str ++ " " ++ toString P.cost,
       P.str ++ ";" ++ C.str ++ " " ++ toString K] := by
  have hsc : scaleOf P 0 = 1 := by rw [scaleOf, hProot]; norm_num
  rw [print_stacks_branch g [] P 0 0 (by simp) (by rw [hPcalls]; simp)]
  rw [hPcalls]
  simp only [List.flatMap_cons, List.flatMap_nil, List.append_nil]
  rw [dep_getF_some hgetC]
  rw [hPcount, hPcost, hsc]
  rw [pyRound_one_mul_int, pyRound_one_mul_int]
  rw [print_stacks_leaf g ([] ++ [P.str]) C 1 K (by simpa using hne) hCleaf]
  simp [joinSemi_single, joinSemi_pair]

/-- Witness for the amended C1: `P` (self cost 2, root) calls leaf `L`
once with inclusive cost 11; the line entering `L` carries exactly 11. -/
theorem claim_C1_witness :
    print_stacks
      [("p.c#P", ⟨⟨"o", "p.c", "P"⟩, [⟨"o", "l.c", "L"⟩], [(⟨"o", "l.c", "L"⟩, 11)],
          [(⟨"o", "l.c", "L"⟩, 1)], 2, 0, 0⟩),
       ("l.c#L", ⟨⟨"o", "l.c", "L"⟩, [], [], [], 9, 11, 1⟩)]
      []
      ⟨⟨"o", "p.c", "P"⟩, [⟨"o", "l.c", "L"⟩], [(⟨"o", "l.c", "L"⟩, 11)],
          [(⟨"o", "l.c", "L"⟩, 1)], 2, 0, 0⟩ 0 0 =
      [(⟨⟨"o", "p.c", "P"⟩, [⟨"o", "l.c", "L"⟩], [(⟨"o", "l.c", "L"⟩, 11)],
          [(⟨"o", "l.c", "L"⟩, 1)], 2, 0, 0⟩ : Function).str ++ " " ++
        toString (⟨⟨"o", "p.c", "P"⟩, [⟨"o", "l.c", "L"⟩], [(⟨"o", "l.c", "L"⟩, 11)],
          [(⟨"o", "l.c", "L"⟩, 1)], 2, 0, 0⟩ : Function).cost,
       (⟨⟨"o", "p.c", "P"⟩, [⟨"o", "l.c", "L"⟩], [(⟨"o", "l.c", "L"⟩, 11)],
          [(⟨"o", "l.c", "L"⟩, 1)], 2, 0, 0⟩ : Function).str ++ ";" ++
        (⟨⟨"o", "l.c", "L"⟩, [], [], [], 9, 11, 1⟩ : Function).str ++ " " ++ toString (11 : ℤ)] :=
  claim_C1 _ _ ⟨⟨"o", "l.c", "L"⟩, [], [], [], 9, 11, 1⟩ 11 rfl rfl rfl rfl rfl rfl rfl
    (by decide)

/-! ### Parser-context lemmas and claims C7, C8 -/

lemma stGet_cons (e : String × String) (rest : PState) (k : String) :
    stGet (e :: rest) k = if e.1 = k then some e.2 else stGet rest k := by
  by_cases h : e.1 = k
  · simp [stGet, List.find?_cons_of_pos, h]
  · rw [if_neg h]
    unfold stGet
    rw [List.find?_cons_of_neg]
    simpa using h

lemma stSet_cons_hit (e : String × String) (rest : PState) (k v : String)
    (h : e.1 = k) : stSet (e :: rest) k v = (k, v) :: rest := by
  simp [stSet, h]

lemma stSet_cons_miss (e : String × String) (rest : PState) (k v : String)
    (h : ¬ e.1 = k) : stSet (e :: rest) k v = e :: stSet rest k v := by
  simp [stSet, h]

lemma stGet_stSet_self (st : PState) (k v : String) :
    stGet (stSet st k v) k = some v := by
  induction st with
  | nil => simp [stSet, stGet_cons]
  | cons e rest ih =>
    by_cases h : e.1 = k
    · rw [stSet_cons_hit e rest k v h, stGet_cons]
      simp
    · rw [stSet_cons_miss e rest k v h, stGet_cons, if_neg h]
      exact ih

lemma stGet_stSet_ne (st : PState) (k j v : String) (h : j ≠ k) :
    stGet (stSet st k v) j = stGet st j := by
  induction st with
  | nil =>
    simp only [stSet, stGet_cons]
    rw [if_neg (fun hc => h hc.symm)]
  | cons e rest ih =>
    by_cases he : e.1 = k
    · rw [stSet_cons_hit e rest k v he, stGet_cons, stGet_cons]
      rw [if_neg (fun hc => h hc.symm), if_neg (fun hc => h (he ▸ hc).symm)]
    · rw [stSet_cons_miss e rest k v he, stGet_cons, stGet_cons, ih]

lemma stGet_stDel_ne (st : PState) (k j : String) (h : j ≠ k) :
    stGet (stDel st k) j = stGet st j := by
  induction st with
  | nil => rfl
  | cons e rest ih =>
    by_cases he : e.1 = k
    · have hb : (!(e.1 == k)) = false := by simp [he]
      have hdrop : stDel (e :: rest) k = stDel rest k := by
        simp only [stDel, List.filter_cons, hb]
        rfl
      rw [hdrop, ih, stGet_cons, if_neg (fun hc => h (he ▸ hc).symm)]
    · have hb : (!(e.1 == k)) = true := by simp [he]
      have hkeep : stDel (e :: rest) k = e :: stDel rest k := by
        simp only [stDel, List.filter_cons, hb]
        rfl
      rw [hkeep, stGet_cons, stGet_cons, ih]

/-- Claim C7: when a `calls=` directive is processed with no `cob`
(resp. `cfi`) set in the parser context, the callee object (resp. file)
defaults to the caller's current `ob` (resp. `fl`) — the handler behaves
exactly as if `cob`/`cfi` had been set to those values, and the
resulting context reads them back as such; after the cost-record line
following a call is consumed, `cob` and `cfi` are deleted from the
context and the in-call flag cleared; and the self-cost attribution
(`costF`, used for cost lines outside a call) is unaffected by the
deletion of `cob`/`cfi`, reading only `ob`/`fl`/`fn`. -/
theorem claim_C7 :
    (∀ (gs : Globs) (st : PState) (ic : Bool) (value o fv : String),
      stGet st "cob" = none → stGet st "ob" = some o →
      stGet st "cfi" = none → stGet st "fl" = some fv →
      handle_directive gs st ic "calls" value =
        (match callsF gs (stSet (stSet (stSet st "calls" value) "cob" o) "cfi" fv) value with
         | .ok gs2 => .ok (gs2, stSet (stSet (stSet st "calls" value) "cob" o) "cfi" fv, true)
         | .error e => .error e) ∧
      stGet (stSet (stSet (stSet st "calls" value) "cob" o) "cfi" fv) "cob" = some o ∧
      stGet (stSet (stSet (stSet st "calls" value) "cob" o) "cfi" fv) "cfi" = some fv) ∧
    (∀ (gs : Globs) (st : PState) (line : String),
      handle_cost gs st true line =
        (match callcostF gs st line with
         | .ok gs2 => .ok (gs2, stDel (stDel st "cob") "cfi", false)
         | .error e => .error e)) ∧
    (∀ (gs : Globs) (st : PState) (line : String),
      costF gs (stDel (stDel st "cob") "cfi") line = costF gs st line) := by
  refine ⟨?_, fun gs st line => rfl, ?_⟩
  · intro gs st ic value o fv hcob hob hcfi hfl
    have h1 : stGet (stSet st "calls" value) "cob" = none := by
      rw [stGet_stSet_ne st _ _ _ (by decide)]
      exact hcob
    have h2 : stGet (stSet st "calls" value) "ob" = some o := by
      rw [stGet_stSet_ne st _ _ _ (by decide)]
      exact hob
    have h3 : stGet (stSet (stSet st "calls" value) "cob" o) "cfi" = none := by
      rw [stGet_stSet_ne _ _ _ _ (by decide), stGet_stSet_ne _ _ _ _ (by decide)]
      exact hcfi
    have h4 : stGet (stSet (stSet st "calls" value) "cob" o) "fl" = some fv := by
      rw [stGet_stSet_ne _ _ _ _ (by decide), stGet_stSet_ne _ _ _ _ (by decide)]
      exact hfl
    refine ⟨?_, ?_, ?_⟩
    · simp [handle_directive, h1, h2, h3, h4]
    · rw [stGet_stSet_ne _ _ _ _ (by decide), stGet_stSet_self]
    · rw [stGet_stSet_self]
  · intro gs st line
    have e1 : stGet (stDel (stDel st "cob") "cfi") "ob" = stGet st "ob" := by
      rw [stGet_stDel_ne _ _ _ (by decide), stGet_stDel_ne _ _ _ (by decide)]
    have e2 : stGet (stDel (stDel st "cob") "cfi") "fl" = stGet st "fl" := by
      rw [stGet_stDel_ne _ _ _ (by decide), stGet_stDel_ne _ _ _ (by decide)]
    have e3 : stGet (stDel (stDel st "cob") "cfi") "fn" = stGet st "fn" := by
      rw [stGet_stDel_ne _ _ _ (by decide), stGet_stDel_ne _ _ _ (by decide)]
    simp only [costF, keyE, e1, e2, e3]

/-- Witness for C7: in a context with `ob = "o1"`, `fl = "f1"` and no
`cob`/`cfi`, processing `calls=` stores the defaults. -/
theorem claim_C7_witness :
    stGet (stSet (stSet (stSet [("ob", "o1"), ("fl", "f1"), ("fn", "m"), ("cfn", "g")]
      "calls" "1 10") "cob" "o1") "cfi" "f1") "cob" = some "o1" ∧
    stGet (stSet (stSet (stSet [("ob", "o1"), ("fl", "f1"), ("fn", "m"), ("cfn", "g")]
      "calls" "1 10") "cob" "o1") "cfi" "f1") "cfi" = some "f1" :=
  ⟨(claim_C7.1 Globs.empty [("ob", "o1"), ("fl", "f1"), ("fn", "m"), ("cfn", "g")] false
      "1 10" "o1" "f1" rfl rfl rfl rfl).2.1,
   (claim_C7.1 Globs.empty [("ob", "o1"), ("fl", "f1"), ("fn", "m"), ("cfn", "g")] false
      "1 10" "o1" "f1" rfl rfl rfl rfl).2.2⟩

/-- Claim C8 is false as stated: a comment line and a blank line each
match neither the `key=value` directive pattern nor the cost-record
pattern, yet they do not end the body phase — the loop consumes them
and goes on to the next line (here ending the phase only at the
following header-style line, which alone is left unconsumed). -/
theorem claim_C8_counterexample :
    matchKeyValue (stripLine "# hi") = none ∧
    isCostLine (stripLine "# hi") = false ∧
    matchKeyValue (stripLine "  ") = none ∧
    isCostLine (stripLine "  ") = false ∧
    parse_body_loop ["# hi", "totals: 3"] [] false Globs.empty =
      .ok (Globs.empty, ["totals: 3"]) ∧
    parse_body_loop ["  ", "totals: 3"] [] false Globs.empty =
      .ok (Globs.empty, ["totals: 3"]) := by
  refine ⟨rfl, rfl, rfl, rfl, rfl, rfl⟩

/-- Claim C8, amended: during the body phase, a line that (after
stripping) is not a comment line and not blank, and is neither a
`key=value` directive nor a cost-record line, ends the body phase, and
the line is left unconsumed at the head of the queue. -/
theorem claim_C8 (raw : String) (rest : List String) (st : PState) (ic : Bool) (gs : Globs)
    (h1 : matchKeyValue (stripLine raw) = none)
    (h2 : isCostLine (stripLine raw) = false)
    (h3 : startsHash (stripLine raw) = false)
    (h4 : ¬ (stripLine raw).length = 0) :
    parse_body_loop (raw :: rest) st ic gs = .ok (gs, raw :: rest) := by
  simp [parse_body_loop, h1, h2, h3, h4]

/-- Witness for C8: a header-style line `"totals: 90"` ends the body
phase unconsumed. -/
theorem claim_C8_witness :
    parse_body_loop ["totals: 90"] [] false Globs.empty = .ok (Globs.empty, ["totals: 90"]) :=
  claim_C8 "totals: 90" [] [] false Globs.empty rfl rfl rfl (by decide)

/-! ### Structural lemmas for claim C10 -/

lemma mem_alSet {l : List (Ident × Int)} {i : Ident} {v : Int} {e : Ident × Int}
    (he : e ∈ alSet l i v) : e = (i, v) ∨ e ∈ l := by
  induction l with
  | nil =>
    rw [show alSet [] i v = [(i, v)] from rfl] at he
    exact Or.inl (List.mem_singleton.mp he)
  | cons e0 rest ih =>
    by_cases h : e0.1 = i
    · rw [alSet_cons_hit e0 rest i v h] at he
      rcases List.mem_cons.mp he with h1 | h1
      · exact Or.inl h1
      · exact Or.inr (List.mem_cons_of_mem _ h1)
    · rw [alSet_cons_miss e0 rest i v h] at he
      rcases List.mem_cons.mp he with h1 | h1
      · exact Or.inr (h1 ▸ List.mem_cons_self _ _)
      · rcases ih h1 with h2 | h2
        · exact Or.inl h2
        · exact Or.inr (List.mem_cons_of_mem _ h2)

lemma mem_setF_self (g : GMap) (s : String) (n : Function) : (s, n) ∈ setF g s n := by
  induction g with
  | nil => exact List.mem_singleton.mpr rfl
  | cons e rest ih =>
    by_cases h : e.1 = s
    · rw [setF_cons_hit e rest s n h]
      exact List.mem_cons_self _ _
    · rw [setF_cons_miss e rest s n h]
      exact List.mem_cons_of_mem _ ih

lemma mem_setF_preserve {g : GMap} {p : String × Function} {s : String} (n : Function)
    (hp : p ∈ g) (hne : p.1 ≠ s) : p ∈ setF g s n := by
  induction g with
  | nil => cases hp
  | cons e rest ih =>
    by_cases h : e.1 = s
    · rw [setF_cons_hit e rest s n h]
      rcases List.mem_cons.mp hp with h1 | h1
      · exact absurd (h1 ▸ h) hne
      · exact List.mem_cons_of_mem _ h1
    · rw [setF_cons_miss e rest s n h]
      rcases List.mem_cons.mp hp with h1 | h1
      · exact h1 ▸ List.mem_cons_self _ _
      · exact List.mem_cons_of_mem _ (ih h1)

lemma mem_setF {g : GMap} {s : String} {n : Function} {p : String × Function}
    (hnd : (g.map Prod.fst).Nodup) (hp : p ∈ setF g s n) :
    p = (s, n) ∨ (p ∈ g ∧ p.1 ≠ s) := by
  induction g with
  | nil =>
    rw [show setF [] s n = [(s, n)] from rfl] at hp
    exact Or.inl (List.mem_singleton.mp hp)
  | cons e rest ih =>
    rw [List.map_cons, List.nodup_cons] at hnd
    obtain ⟨hnin, hrest⟩ := hnd
    by_cases h : e.1 = s
    · rw [setF_cons_hit e rest s n h] at hp
      rcases List.mem_cons.mp hp with h1 | h1
      · exact Or.inl h1
      · refine Or.inr ⟨List.mem_cons_of_mem _ h1, ?_⟩
        intro hkey
        apply hnin
        have hm : p.1 ∈ rest.map Prod.fst := List.mem_map_of_mem Prod.fst h1
        rwa [hkey, ← h] at hm
    · rw [setF_cons_miss e rest s n h] at hp
      rcases List.mem_cons.mp hp with h1 | h1
      · exact Or.inr ⟨h1 ▸ List.mem_cons_self _ _, h1 ▸ h⟩
      · rcases ih hrest h1 with h2 | h2
        · exact Or.inl h2
        · exact Or.inr ⟨List.mem_cons_of_mem _ h2.1, h2.2⟩

lemma keys_setF_subset {g : GMap} {s : String} {n : Function} {x : String}
    (hx : x ∈ (setF g s n).map Prod.fst) : x ∈ g.map Prod.fst ∨ x = s := by
  induction g with
  | nil =>
    rw [show setF [] s n = [(s, n)] from rfl] at hx
    exact Or.inr (by simpa using hx)
  | cons e rest ih =>
    by_cases h : e.1 = s
    · rw [setF_cons_hit e rest s n h] at hx
      rw [List.map_cons] at hx
      rcases List.mem_cons.mp hx with h1 | h1
      · exact Or.inr h1
      · exact Or.inl (by rw [List.map_cons]; exact List.mem_cons_of_mem _ h1)
    · rw [setF_cons_miss e rest s n h] at hx
      rw [List.map_cons] at hx
      rcases List.mem_cons.mp hx with h1 | h1
      · exact Or.inl (by rw [List.map_cons]; exact h1 ▸ List.mem_cons_self _ _)
      · rcases ih h1 with h2 | h2
        · exact Or.inl (by rw [List.map_cons]; exact List.mem_cons_of_mem _ h2)
        · exact Or.inr h2

lemma nodup_setF {g : GMap} (s : String) (n : Function)
    (hnd : (g.map Prod.fst).Nodup) : ((setF g s n).map Prod.fst).Nodup := by
  induction g with
  | nil =>
    rw [show setF [] s n = [(s, n)] from rfl]
    simp
  | cons e rest ih =>
    rw [List.map_cons, List.nodup_cons] at hnd
    obtain ⟨hnin, hrest⟩ := hnd
    by_cases h : e.1 = s
    · rw [setF_cons_hit e rest s n h, List.map_cons, List.nodup_cons]
      exact ⟨h ▸ hnin, hrest⟩
    · rw [setF_cons_miss e rest s n h, List.map_cons, List.nodup_cons]
      refine ⟨?_, ih hrest⟩
      intro hx
      rcases keys_setF_subset hx with h1 | h1
      · exact hnin h1
      · exact h h1

lemma WFMap_setF {g : GMap} {s : String} {n : Function}
    (hwf : WFMap g) (hsig : n.ident.sig = s) : WFMap (setF g s n) := by
  refine ⟨nodup_setF s n hwf.1, ?_⟩
  intro p hp
  rcases mem_setF hwf.1 hp with h | ⟨hpg, _⟩
  · rw [h]
    exact hsig.symm
  · exact hwf.2 p hpg

lemma alGet_nonneg {g : GMap} {s0 : String} {node : Function}
    (hc : CountsOk g) (hp : (s0, node) ∈ g) (i : Ident) :
    0 ≤ alGet node.callcounts i := by
  unfold alGet
  cases hfind : node.callcounts.find? (fun e => e.1 == i) with
  | none => exact le_refl 0
  | some e => exact (hc.2.1 (s0, node) hp e (List.mem_of_find?_eq_some hfind)).1

lemma alGet_le_total {g : GMap} {s0 sq : String} {node q : Function}
    (hc : CountsOk g) (hp : (s0, node) ∈ g) (hq : (sq, q) ∈ g) (i : Ident)
    (hsig : q.ident.sig = i.sig) :
    alGet node.callcounts i ≤ q.total_call_count := by
  unfold alGet
  cases hfind : node.callcounts.find? (fun e => e.1 == i) with
  | none => exact hc.1 (sq, q) hq
  | some e =>
    have hkey : e.1 = i := by simpa using List.find?_some hfind
    exact (hc.2.1 (s0, node) hp e (List.mem_of_find?_eq_some hfind)).2 (sq, q) hq
      (by rw [hkey]; exact hsig)

/-- The structural-registration step of `add_call` preserves both
invariants: the new zero-valued accumulator entry is trivially bounded,
and nothing else changes. -/
lemma add_call_reg_preserves {g : GMap} {s1 : String} {caller callee : Function}
    (hwf : WFMap g) (hc : CountsOk g)
    (hget1 : getF g s1 = some caller) (hgcallee : (callee.ident.sig, callee) ∈ g) :
    WFMap (setF g s1 { caller with
      calls := caller.calls ++ [callee.ident],
      callcosts := alSet caller.callcosts callee.ident 0,
      callcounts := alSet caller.callcounts callee.ident 0 }) ∧
    CountsOk (setF g s1 { caller with
      calls := caller.calls ++ [callee.ident],
      callcosts := alSet caller.callcosts callee.ident 0,
      callcounts := alSet caller.callcounts callee.ident 0 }) := by
  have hmem1 : (s1, caller) ∈ g := getF_some_mem hget1
  have hs1 : s1 = caller.ident.sig := hwf.2 _ hmem1
  set regN : Function := { caller with
      calls := caller.calls ++ [callee.ident],
      callcosts := alSet caller.callcosts callee.ident 0,
      callcounts := alSet caller.callcounts callee.ident 0 } with hregN
  constructor
  · exact WFMap_setF hwf hs1.symm
  · refine ⟨?_, ?_, ?_⟩
    · intro p hp
      rcases mem_setF hwf.1 hp with hpe | ⟨hpg, _⟩
      · subst hpe
        exact hc.1 (s1, caller) hmem1
      · exact hc.1 p hpg
    · intro p hp e he
      rcases mem_setF hwf.1 hp with hpe | ⟨hpg, _⟩
      · subst hpe
        have he2 : e ∈ alSet caller.callcounts callee.ident 0 := he
        rcases mem_alSet he2 with he0 | heo
        · subst he0
          refine ⟨le_refl 0, ?_⟩
          intro q hq _
          rcases mem_setF hwf.1 hq with hqe | ⟨hqg, _⟩
          · subst hqe
            exact hc.1 (s1, caller) hmem1
          · exact hc.1 q hqg
        · obtain ⟨hnn, hbound⟩ := hc.2.1 (s1, caller) hmem1 e heo
          refine ⟨hnn, ?_⟩
          intro q hq hqs
          rcases mem_setF hwf.1 hq with hqe | ⟨hqg, _⟩
          · subst hqe
            exact hbound (s1, caller) hmem1 hqs
          · exact hbound q hqg hqs
      · obtain ⟨hnn, hbound⟩ := hc.2.1 p hpg e he
        refine ⟨hnn, ?_⟩
        intro q hq hqs
        rcases mem_setF hwf.1 hq with hqe | ⟨hqg, _⟩
        · subst hqe
          exact hbound (s1, caller) hmem1 hqs
        · exact hbound q hqg hqs
    · intro p hp e he
      rcases mem_setF hwf.1 hp with hpe | ⟨hpg, _⟩
      · subst hpe
        have he2 : e ∈ alSet caller.callcounts callee.ident 0 := he
        rcases mem_alSet he2 with he0 | heo
        · subst he0
          by_cases hk : callee.ident.sig = s1
          · exact ⟨(s1, regN), mem_setF_self g s1 regN, hk.symm⟩
          · exact ⟨(callee.ident.sig, callee), mem_setF_preserve regN hgcallee hk, rfl⟩
        · obtain ⟨q0, hq0, hq0key⟩ := hc.2.2 (s1, caller) hmem1 e heo
          by_cases hk : q0.1 = s1
          · exact ⟨(s1, regN), mem_setF_self g s1 regN, by rw [← hk]; exact hq0key⟩
          · exact ⟨q0, mem_setF_preserve regN hq0 hk, hq0key⟩
      · obtain ⟨q0, hq0, hq0key⟩ := hc.2.2 p hpg e he
        by_cases hk : q0.1 = s1
        · exact ⟨(s1, regN), mem_setF_self g s1 regN, by rw [← hk]; exact hq0key⟩
        · exact ⟨q0, mem_setF_preserve regN hq0 hk, hq0key⟩

/-- An update that keeps a node's identity, `callcounts` and
`total_call_count` (as `add_callcost` and `add_cost` do) preserves
`CountsOk`. -/
lemma CountsOk_setF_same {g : GMap} {s : String} {n n0 : Function}
    (hwf : WFMap g) (hc : CountsOk g) (hget : getF g s = some n0)
    (hcounts : n.callcounts = n0.callcounts)
    (htot : n.total_call_count = n0.total_call_count)
    (hident : n.ident = n0.ident) :
    CountsOk (setF g s n) := by
  have hmem0 : (s, n0) ∈ g := getF_some_mem hget
  refine ⟨?_, ?_, ?_⟩
  · intro p hp
    rcases mem_setF hwf.1 hp with hpe | ⟨hpg, _⟩
    · subst hpe
      show (0:Int) ≤ n.total_call_count
      rw [htot]
      exact hc.1 (s, n0) hmem0
    · exact hc.1 p hpg
  · intro p hp e he
    rcases mem_setF hwf.1 hp with hpe | ⟨hpg, _⟩
    · subst hpe
      have he2 : e ∈ n.callcounts := he
      rw [hcounts] at he2
      obtain ⟨hnn, hbound⟩ := hc.2.1 (s, n0) hmem0 e he2
      refine ⟨hnn, ?_⟩
      intro q hq hqs
      rcases mem_setF hwf.1 hq with hqe | ⟨hqg, _⟩
      · subst hqe
        show e.2 ≤ n.total_call_count
        rw [htot]
        refine hbound (s, n0) hmem0 ?_
        have hqs2 : n.ident.sig = e.1.sig := hqs
        rw [hident] at hqs2
        exact hqs2
      · exact hbound q hqg hqs
    · obtain ⟨hnn, hbound⟩ := hc.2.1 p hpg e he
      refine ⟨hnn, ?_⟩
      intro q hq hqs
      rcases mem_setF hwf.1 hq with hqe | ⟨hqg, _⟩
      · subst hqe
        show e.2 ≤ n.total_call_count
        rw [htot]
        refine hbound (s, n0) hmem0 ?_
        have hqs2 : n.ident.sig = e.1.sig := hqs
        rw [hident] at hqs2
        exact hqs2
      · exact hbound q hqg hqs
  · intro p hp e he
    rcases mem_setF hwf.1 hp with hpe | ⟨hpg, _⟩
    · subst hpe
      have he2 : e ∈ n.callcounts := he
      rw [hcounts] at he2
      obtain ⟨q0, hq0, hq0key⟩ := hc.2.2 (s, n0) hmem0 e he2
      by_cases hk : q0.1 = s
      · exact ⟨(s, n), mem_setF_self g s n, by rw [← hk]; exact hq0key⟩
      · exact ⟨q0, mem_setF_preserve n hq0 hk, hq0key⟩
    · obtain ⟨q0, hq0, hq0key⟩ := hc.2.2 p hpg e he
      by_cases hk : q0.1 = s
      · exact ⟨(s, n), mem_setF_self g s n, by rw [← hk]; exact hq0key⟩
      · exact ⟨q0, mem_setF_preserve n hq0 hk, hq0key⟩

/-- The accumulation step of `add_call` past the recursion guard
preserves both invariants: the bumped edge entry and the bumped inbound
total move together, and every other bound only gets slacker. -/
lemma add_call_core_preserves {g1 : GMap} {s1 s2 : String} {caller1 callee : Function} {c : Int}
    (hwf : WFMap g1) (hc : CountsOk g1)
    (hg1 : getF g1 s1 = some caller1) (hg2 : getF g1 s2 = some callee)
    (hne : caller1.ident ≠ callee.ident) (hcn : 0 ≤ c) :
    WFMap (setF (setF g1 s1 { caller1 with
        callcosts := alSet caller1.callcosts callee.ident (alGet caller1.callcosts callee.ident + 0),
        callcounts := alSet caller1.callcounts callee.ident (alGet caller1.callcounts callee.ident + c) })
      s2 { callee with total_call_count := callee.total_call_count + c }) ∧
    CountsOk (setF (setF g1 s1 { caller1 with
        callcosts := alSet caller1.callcosts callee.ident (alGet caller1.callcosts callee.ident + 0),
        callcounts := alSet caller1.callcounts callee.ident (alGet caller1.callcounts callee.ident + c) })
      s2 { callee with total_call_count := callee.total_call_count + c }) := by
  have hmem1 : (s1, caller1) ∈ g1 := getF_some_mem hg1
  have hmemc : (s2, callee) ∈ g1 := getF_some_mem hg2
  have hs1 : s1 = caller1.ident.sig := hwf.2 _ hmem1
  have hs2 : s2 = callee.ident.sig := hwf.2 _ hmemc
  have hs12 : s1 ≠ s2 := by
    intro h
    rw [h, hg2] at hg1
    exact hne (by rw [Option.some_inj.mp hg1])
  set caller2 : Function := { caller1 with
    callcosts := alSet caller1.callcosts callee.ident (alGet caller1.callcosts callee.ident + 0),
    callcounts := alSet caller1.callcounts callee.ident (alGet caller1.callcounts callee.ident + c) }
    with hcaller2
  set calleeN : Function := { callee with total_call_count := callee.total_call_count + c }
    with hcalleeN
  set gMid : GMap := setF g1 s1 caller2 with hgMid
  have hndMid : (gMid.map Prod.fst).Nodup := nodup_setF s1 caller2 hwf.1
  have hmap : ∀ sig0 : String, (∃ q0 ∈ g1, q0.1 = sig0) →
      ∃ q ∈ setF gMid s2 calleeN, q.1 = sig0 := by
    rintro sig0 ⟨q0, hq0, hkey⟩
    by_cases hk2 : q0.1 = s2
    · exact ⟨(s2, calleeN), mem_setF_self gMid s2 calleeN, by rw [← hk2]; exact hkey⟩
    · by_cases hk1 : q0.1 = s1
      · exact ⟨(s1, caller2),
          mem_setF_preserve calleeN (mem_setF_self g1 s1 caller2) hs12,
          by rw [← hk1]; exact hkey⟩
      · exact ⟨q0, mem_setF_preserve calleeN (mem_setF_preserve caller2 hq0 hk1) hk2, hkey⟩
  have hqbound : ∀ e : Ident × Int,
      (∀ q ∈ g1, q.2.ident.sig = e.1.sig → e.2 ≤ q.2.total_call_count) →
      ∀ q ∈ setF gMid s2 calleeN, q.2.ident.sig = e.1.sig → e.2 ≤ q.2.total_call_count := by
    intro e hbound q hq hqs
    rcases mem_setF hndMid hq with hqe | ⟨hqmid, _⟩
    · subst hqe
      have h1 : e.2 ≤ callee.total_call_count := hbound (s2, callee) hmemc hqs
      show e.2 ≤ callee.total_call_count + c
      omega
    · rcases mem_setF hwf.1 hqmid with hqe1 | ⟨hqg, _⟩
      · subst hqe1
        exact hbound (s1, caller1) hmem1 hqs
      · exact hbound q hqg hqs
  constructor
  · exact WFMap_setF (WFMap_setF hwf hs1.symm) hs2.symm
  · refine ⟨?_, ?_, ?_⟩
    · intro p hp
      rcases mem_setF hndMid hp with hpe | ⟨hpmid, _⟩
      · subst hpe
        show (0:Int) ≤ callee.total_call_count + c
        have h0 : (0:Int) ≤ callee.total_call_count := hc.1 (s2, callee) hmemc
        omega
      · rcases mem_setF hwf.1 hpmid with hpe1 | ⟨hpg, _⟩
        · subst hpe1
          exact hc.1 (s1, caller1) hmem1
        · exact hc.1 p hpg
    · intro p hp e he
      rcases mem_setF hndMid hp with hpe | ⟨hpmid, _⟩
      · subst hpe
        obtain ⟨hnn, hbound⟩ := hc.2.1 (s2, callee) hmemc e he
        exact ⟨hnn, hqbound e hbound⟩
      · rcases mem_setF hwf.1 hpmid with hpe1 | ⟨hpg, _⟩
        · subst hpe1
          have he2 : e ∈ alSet caller1.callcounts callee.ident
              (alGet caller1.callcounts callee.ident + c) := he
          rcases mem_alSet he2 with he0 | heo
          · subst he0
            refine ⟨add_nonneg (alGet_nonneg hc hmem1 callee.ident) hcn, ?_⟩
            intro q hq hqs
            rcases mem_setF hndMid hq with hqe | ⟨hqmid, hq2⟩
            · subst hqe
              show alGet caller1.callcounts callee.ident + c ≤ callee.total_call_count + c
              have := alGet_le_total hc hmem1 hmemc callee.ident rfl
              omega
            · rcases mem_setF hwf.1 hqmid with hqe1 | ⟨hqg, hq1⟩
              · subst hqe1
                have hss : caller1.ident.sig = callee.ident.sig := hqs
                exact absurd (hs1.trans (hss.trans hs2.symm)) hs12
              · have hqkey : q.1 = q.2.ident.sig := hwf.2 q hqg
                have hqs2 : q.2.ident.sig = callee.ident.sig := hqs
                exact absurd (hqkey.trans (hqs2.trans hs2.symm)) hq2
          · obtain ⟨hnn, hbound⟩ := hc.2.1 (s1, caller1) hmem1 e heo
            exact ⟨hnn, hqbound e hbound⟩
        · obtain ⟨hnn, hbound⟩ := hc.2.1 p hpg e he
          exact ⟨hnn, hqbound e hbound⟩
    · intro p hp e he
      rcases mem_setF hndMid hp with hpe | ⟨hpmid, _⟩
      · subst hpe
        exact hmap e.1.sig (hc.2.2 (s2, callee) hmemc e he)
      · rcases mem_setF hwf.1 hpmid with hpe1 | ⟨hpg, _⟩
        · subst hpe1
          have he2 : e ∈ alSet caller1.callcounts callee.ident
              (alGet caller1.callcounts callee.ident + c) := he
          rcases mem_alSet he2 with he0 | heo
          · subst he0
            exact hmap callee.ident.sig ⟨(s2, callee), hmemc, hs2⟩
          · exact hmap e.1.sig (hc.2.2 (s1, caller1) hmem1 e heo)
        · exact hmap e.1.sig (hc.2.2 p hpg e he)

lemma add_call_eq_guard {g : GMap} {s1 s2 : String} {caller callee : Function} (c : Int)
    (h1 : getF g s1 = some caller) (h2 : getF g s2 = some callee)
    (hid : caller.ident = callee.ident) :
    add_call g s1 s2 c =
      if callee.ident ∈ caller.calls then g
      else setF g s1 { caller with
        calls := caller.calls ++ [callee.ident],
        callcosts := alSet caller.callcosts callee.ident 0,
        callcounts := alSet caller.callcounts callee.ident 0 } := by
  unfold add_call
  rw [h1, h2]
  simp only [hid, if_pos]

lemma add_call_eq_registered {g : GMap} {s1 s2 : String} {caller callee : Function} (c : Int)
    (h1 : getF g s1 = some caller) (h2 : getF g s2 = some callee)
    (hid : ¬ caller.ident = callee.ident) (hmem : callee.ident ∈ caller.calls)
    (hs21 : s2 ≠ s1) :
    add_call g s1 s2 c =
      setF (setF g s1 { caller with
          callcosts := alSet caller.callcosts callee.ident (alGet caller.callcosts callee.ident + 0),
          callcounts := alSet caller.callcounts callee.ident (alGet caller.callcounts callee.ident + c) })
        s2 { callee with total_call_count := callee.total_call_count + c } := by
  have hg2s2 : getF (setF g s1 { caller with
      callcosts := alSet caller.callcosts callee.ident (alGet caller.callcosts callee.ident + 0),
      callcounts := alSet caller.callcounts callee.ident (alGet caller.callcounts callee.ident + c) })
      s2 = some callee := by
    rw [getF_setF_ne _ _ _ _ hs21]
    exact h2
  unfold add_call
  rw [h1, h2]
  simp only [hmem, if_true, hid, if_false]
  rw [h1]
  simp only []
  rw [hg2s2]

lemma add_call_eq_fresh {g : GMap} {s1 s2 : String} {caller callee : Function} (c : Int)
    (h1 : getF g s1 = some caller) (h2 : getF g s2 = some callee)
    (hid : ¬ caller.ident = callee.ident) (hmem : ¬ callee.ident ∈ caller.calls)
    (hs21 : s2 ≠ s1) :
    add_call g s1 s2 c =
      setF (setF (setF g s1 { caller with
          calls := caller.calls ++ [callee.ident],
          callcosts := alSet caller.callcosts callee.ident 0,
          callcounts := alSet caller.callcounts callee.ident 0 }) s1
        { { caller with
            calls := caller.calls ++ [callee.ident],
            callcosts := alSet caller.callcosts callee.ident 0,
            callcounts := alSet caller.callcounts callee.ident 0 } with
          callcosts := alSet (alSet caller.callcosts callee.ident 0) callee.ident
            (alGet (alSet caller.callcosts callee.ident 0) callee.ident + 0),
          callcounts := alSet (alSet caller.callcounts callee.ident 0) callee.ident
            (alGet (alSet caller.callcounts callee.ident 0) callee.ident + c) })
        s2 { callee with total_call_count := callee.total_call_count + c } := by
  have hreg : getF (setF g s1 { caller with
      calls := caller.calls ++ [callee.ident],
      callcosts := alSet caller.callcosts callee.ident 0,
      callcounts := alSet caller.callcounts callee.ident 0 }) s1 = some { caller with
      calls := caller.calls ++ [callee.ident],
      callcosts := alSet caller.callcosts callee.ident 0,
      callcounts := alSet caller.callcounts callee.ident 0 } := getF_setF_self g s1 _
  have hg2s2 : getF (setF (setF g s1 { caller with
      calls := caller.calls ++ [callee.ident],
      callcosts := alSet caller.callcosts callee.ident 0,
      callcounts := alSet caller.callcounts callee.ident 0 }) s1
      { { caller with
          calls := caller.calls ++ [callee.ident],
          callcosts := alSet caller.callcosts callee.ident 0,
          callcounts := alSet caller.callcounts callee.ident 0 } with
        callcosts := alSet (alSet caller.callcosts callee.ident 0) callee.ident
          (alGet (alSet caller.callcosts callee.ident 0) callee.ident + 0),
        callcounts := alSet (alSet caller.callcounts callee.ident 0) callee.ident
          (alGet (alSet caller.callcounts callee.ident 0) callee.ident + c) })
      s2 = some callee := by
    rw [getF_setF_ne _ _ _ _ hs21, getF_setF_ne _ _ _ _ hs21]
    exact h2
  unfold add_call
  rw [h1, h2]
  simp only [hmem, if_false, hid]
  rw [hreg]
  simp only []
  rw [hg2s2]

/-- `add_call` with a non-negative count preserves both invariants. -/
lemma add_call_preserves (g : GMap) (s1 s2 : String) (c : Int)
    (hwf : WFMap g) (hc : CountsOk g) (hcn : 0 ≤ c) :
    WFMap (add_call g s1 s2 c) ∧ CountsOk (add_call g s1 s2 c) := by
  cases hget1 : getF g s1 with
  | none =>
    have heq : add_call g s1 s2 c = g := by
      unfold add_call
      rw [hget1]
    rw [heq]
    exact ⟨hwf, hc⟩
  | some caller =>
    cases hget2 : getF g s2 with
    | none =>
      have heq : add_call g s1 s2 c = g := by
        unfold add_call
        rw [hget1, hget2]
      rw [heq]
      exact ⟨hwf, hc⟩
    | some callee =>
      have hcalleeMem : (callee.ident.sig, callee) ∈ g := by
        have h0 := getF_some_mem hget2
        have hs2sig : s2 = callee.ident.sig := hwf.2 _ (getF_some_mem hget2)
        rwa [hs2sig] at h0
      by_cases hid : caller.ident = callee.ident
      · rw [add_call_eq_guard c hget1 hget2 hid]
        by_cases hmem : callee.ident ∈ caller.calls
        · rw [if_pos hmem]
          exact ⟨hwf, hc⟩
        · rw [if_neg hmem]
          exact add_call_reg_preserves hwf hc hget1 hcalleeMem
      · have hs21 : s2 ≠ s1 := by
          intro h
          rw [h, hget1] at hget2
          exact hid (by rw [Option.some_inj.mp hget2])
        by_cases hmem : callee.ident ∈ caller.calls
        · rw [add_call_eq_registered c hget1 hget2 hid hmem hs21]
          exact add_call_core_preserves hwf hc hget1 hget2 hid hcn
        · rw [add_call_eq_fresh c hget1 hget2 hid hmem hs21]
          obtain ⟨hwf1, hc1⟩ := add_call_reg_preserves hwf hc hget1 hcalleeMem
          have hreg : getF (setF g s1 { caller with
              calls := caller.calls ++ [callee.ident],
              callcosts := alSet caller.callcosts callee.ident 0,
              callcounts := alSet caller.callcounts callee.ident 0 }) s1 =
            some { caller with
              calls := caller.calls ++ [callee.ident],
              callcosts := alSet caller.callcosts callee.ident 0,
              callcounts := alSet caller.callcounts callee.ident 0 } := getF_setF_self g s1 _
          have hg1s2 : getF (setF g s1 { caller with
              calls := caller.calls ++ [callee.ident],
              callcosts := alSet caller.callcosts callee.ident 0,
              callcounts := alSet caller.callcounts callee.ident 0 }) s2 = some callee := by
            rw [getF_setF_ne _ _ _ _ hs21]
            exact hget2
          exact add_call_core_preserves hwf1 hc1 hreg hg1s2 hid hcn

lemma add_callcost_eq {g : GMap} {s1 s2 : String} {caller callee : Function} {last : Ident}
    (cost : Int)
    (h1 : getF g s1 = some caller) (h2 : getF g s2 = some callee)
    (hid : ¬ caller.ident = callee.ident) (hlast : caller.calls.getLast? = some last)
    (hs21 : s2 ≠ s1) :
    add_callcost g s1 s2 cost =
      setF (setF g s1 { caller with
          callcosts := alSet caller.callcosts last (alGet caller.callcosts last + cost) })
        s2 { callee with total_call_cost := callee.total_call_cost + cost } := by
  have hg1s2 : getF (setF g s1 { caller with
      callcosts := alSet caller.callcosts last (alGet caller.callcosts last + cost) }) s2 =
      some callee := by
    rw [getF_setF_ne _ _ _ _ hs21]
    exact h2
  unfold add_callcost
  rw [h1, h2]
  simp only [hid, if_false]
  rw [hlast]
  simp only []
  rw [hg1s2]

/-- `add_callcost` preserves both invariants (it never touches
`callcounts` or `total_call_count`). -/
lemma add_callcost_preserves (g : GMap) (s1 s2 : String) (cost : Int)
    (hwf : WFMap g) (hc : CountsOk g) :
    WFMap (add_callcost g s1 s2 cost) ∧ CountsOk (add_callcost g s1 s2 cost) := by
  cases hget1 : getF g s1 with
  | none =>
    have heq : add_callcost g s1 s2 cost = g := by
      unfold add_callcost
      rw [hget1]
    rw [heq]
    exact ⟨hwf, hc⟩
  | some caller =>
    cases hget2 : getF g s2 with
    | none =>
      have heq : add_callcost g s1 s2 cost = g := by
        unfold add_callcost
        rw [hget1, hget2]
      rw [heq]
      exact ⟨hwf, hc⟩
    | some callee =>
      by_cases hid : caller.ident = callee.ident
      · have heq : add_callcost g s1 s2 cost = g := by
          unfold add_callcost
          rw [hget1, hget2]
          simp only [hid, if_pos]
        rw [heq]
        exact ⟨hwf, hc⟩
      · have hs21 : s2 ≠ s1 := by
          intro h
          rw [h, hget1] at hget2
          exact hid (by rw [Option.some_inj.mp hget2])
        cases hlast : caller.calls.getLast? with
        | none =>
          have heq : add_callcost g s1 s2 cost = g := by
            unfold add_callcost
            rw [hget1, hget2]
            simp only [hid, if_false]
            rw [hlast]
          rw [heq]
          exact ⟨hwf, hc⟩
        | some last =>
          rw [add_callcost_eq cost hget1 hget2 hid hlast hs21]
          have hs1sig : s1 = caller.ident.sig := hwf.2 _ (getF_some_mem hget1)
          have hs2sig : s2 = callee.ident.sig := hwf.2 _ (getF_some_mem hget2)
          have hwf1 : WFMap (setF g s1 { caller with
              callcosts := alSet caller.callcosts last (alGet caller.callcosts last + cost) }) :=
            WFMap_setF hwf hs1sig.symm
          have hc1 : CountsOk (setF g s1 { caller with
              callcosts := alSet caller.callcosts last (alGet caller.callcosts last + cost) }) :=
            CountsOk_setF_same hwf hc hget1 rfl rfl rfl
          have hg1s2 : getF (setF g s1 { caller with
              callcosts := alSet caller.callcosts last (alGet caller.callcosts last + cost) })
              s2 = some callee := by
            rw [getF_setF_ne _ _ _ _ hs21]
            exact hget2
          exact ⟨WFMap_setF hwf1 hs2sig.symm, CountsOk_setF_same hwf1 hc1 hg1s2 rfl rfl rfl⟩

/-- `add_cost` preserves both invariants (it only touches the self
cost). -/
lemma add_cost_preserves (g : GMap) (s : String) (cost : Int)
    (hwf : WFMap g) (hc : CountsOk g) :
    WFMap (add_cost g s cost) ∧ CountsOk (add_cost g s cost) := by
  cases hget : getF g s with
  | none =>
    have heq : add_cost g s cost = g := by
      unfold add_cost
      rw [hget]
    rw [heq]
    exact ⟨hwf, hc⟩
  | some n =>
    have heq : add_cost g s cost = setF g s { n with cost := n.cost + cost } := by
      unfold add_cost
      rw [hget]
    rw [heq]
    have hsig : s = n.ident.sig := hwf.2 _ (getF_some_mem hget)
    exact ⟨WFMap_setF hwf hsig.symm, CountsOk_setF_same hwf hc hget rfl rfl rfl⟩

lemma getF_none_keys {g : GMap} {s : String} (h : getF g s = none) :
    ∀ p ∈ g, p.1 ≠ s := by
  intro p hp hkey
  unfold getF at h
  have hfind : g.find? (fun q => q.1 == s) = none := by
    cases hx : g.find? (fun q => q.1 == s) with
    | none => rfl
    | some q =>
      rw [hx] at h
      simp at h
  have := List.find?_eq_none.mp hfind p hp
  exact this (by simp [hkey])

/-- Appending a fresh zero node (as `lookup_f` does) preserves both
invariants. -/
lemma append_fresh_preserves {g : GMap} {sig0 : String} {func : Function}
    (hwf : WFMap g) (hc : CountsOk g)
    (hnone : getF g sig0 = none) (hsig : func.ident.sig = sig0)
    (hzcounts : func.callcounts = []) (hztot : func.total_call_count = 0) :
    WFMap (g ++ [(sig0, func)]) ∧ CountsOk (g ++ [(sig0, func)]) := by
  have hfreshkey : ∀ p ∈ g, p.1 ≠ sig0 := getF_none_keys hnone
  constructor
  · constructor
    · rw [List.map_append]
      refine List.Nodup.append hwf.1 (by simp) ?_
      intro x hx hx2
      rcases List.mem_map.mp hx with ⟨p, hp, hpx⟩
      have : x = sig0 := by simpa using hx2
      exact hfreshkey p hp (hpx.symm ▸ this ▸ rfl)
    · intro p hp
      rcases List.mem_append.mp hp with h1 | h1
      · exact hwf.2 p h1
      · have : p = (sig0, func) := by simpa using h1
        rw [this]
        exact hsig.symm
  · refine ⟨?_, ?_, ?_⟩
    · intro p hp
      rcases List.mem_append.mp hp with h1 | h1
      · exact hc.1 p h1
      · have : p = (sig0, func) := by simpa using h1
        rw [this]
        show (0:Int) ≤ func.total_call_count
        rw [hztot]
    · intro p hp e he
      rcases List.mem_append.mp hp with h1 | h1
      · obtain ⟨hnn, hbound⟩ := hc.2.1 p h1 e he
        refine ⟨hnn, ?_⟩
        intro q hq hqs
        rcases List.mem_append.mp hq with h2 | h2
        · exact hbound q h2 hqs
        · have hq0 : q = (sig0, func) := by simpa using h2
          obtain ⟨q0, hq0g, hq0key⟩ := hc.2.2 p h1 e he
          have hkeysig : q0.1 = sig0 := by
            rw [hq0key]
            rw [hq0] at hqs
            have hqs2 : func.ident.sig = e.1.sig := hqs
            rw [← hqs2, hsig]
          exact absurd hkeysig (hfreshkey q0 hq0g)
      · have hp0 : p = (sig0, func) := by simpa using h1
        rw [hp0] at he
        have he2 : e ∈ func.callcounts := he
        rw [hzcounts] at he2
        cases he2
    · intro p hp e he
      rcases List.mem_append.mp hp with h1 | h1
      · obtain ⟨q0, hq0g, hq0key⟩ := hc.2.2 p h1 e he
        exact ⟨q0, List.mem_append_left _ hq0g, hq0key⟩
      · have hp0 : p = (sig0, func) := by simpa using h1
        rw [hp0] at he
        have he2 : e ∈ func.callcounts := he
        rw [hzcounts] at he2
        cases he2

/-- `lookup_f` preserves both invariants of the function registry. -/
lemma lookup_f_preserves (gs : Globs) (o f n : String) (gs' : Globs) (sig : String)
    (hwf : WFMap gs.functions) (hc : CountsOk gs.functions)
    (h : lookup_f gs o f n = .ok (gs', sig)) :
    WFMap gs'.functions ∧ CountsOk gs'.functions := by
  unfold lookup_f at h
  cases hob : lookup gs.ob o with
  | error e =>
    rw [hob] at h
    cases h
  | ok pr =>
    obtain ⟨obT, obstr⟩ := pr
    rw [hob] at h
    cases hfl : lookup gs.fl f with
    | error e =>
      rw [hfl] at h
      cases h
    | ok pr2 =>
      obtain ⟨flT, flstr⟩ := pr2
      rw [hfl] at h
      cases hfn : lookup gs.fn n with
      | error e =>
        rw [hfn] at h
        cases h
      | ok pr3 =>
        obtain ⟨fnT, fnstr⟩ := pr3
        rw [hfn] at h
        simp only [Except.ok.injEq, Prod.mk.injEq] at h
        obtain ⟨hgs, _⟩ := h
        rw [← hgs]
        by_cases hpres : (getF gs.functions (Function.init obstr flstr fnstr).str).isSome
        · show WFMap (if (getF gs.functions (Function.init obstr flstr fnstr).str).isSome
              then gs.functions else _) ∧ CountsOk _
          rw [if_pos hpres]
          exact ⟨hwf, hc⟩
        · show WFMap (if (getF gs.functions (Function.init obstr flstr fnstr).str).isSome
              then gs.functions else _) ∧ CountsOk _
          rw [if_neg hpres]
          have hnone : getF gs.functions (Function.init obstr flstr fnstr).str = none := by
            cases hx : getF gs.functions (Function.init obstr flstr fnstr).str with
            | none => rfl
            | some q =>
              rw [hx] at hpres
              simp at hpres
          exact append_fresh_preserves hwf hc hnone rfl rfl rfl

lemma print_stacks_ok_cycle (g : GMap) (stack : List String) (node : Function) (count : Int)
    (h : node.str ∈ stack) : print_stacks_ok g stack node count = true := by
  rw [print_stacks_ok.eq_def]
  simp [h]

lemma print_stacks_ok_leafish (g : GMap) (stack : List String) (node : Function) (count : Int)
    (h : ¬ node.str ∈ stack) (hcalls : ¬ 0 < node.calls.length) :
    print_stacks_ok g stack node count = true := by
  rw [print_stacks_ok.eq_def]
  simp [h, hcalls]

lemma print_stacks_ok_branch (g : GMap) (stack : List String) (node : Function) (count : Int)
    (h : ¬ node.str ∈ stack) (hcalls : 0 < node.calls.length) :
    print_stacks_ok g stack node count =
      ((!(decide (0 < node.total_call_count)) || decide (count ≤ node.total_call_count)) &&
        node.calls.all (fun f =>
          match _hf : getF g f.sig with
          | some fn => print_stacks_ok g (stack ++ [node.str]) fn (alGet node.callcounts f)
          | none => true)) := by
  rw [print_stacks_ok.eq_def]
  simp [h, hcalls]

/-- Along any traversal of a registry satisfying the invariants, a node
entered with a count bounded by its inbound total passes the assertion,
and passes each child the accumulated count of the edge into it — which
the invariant bounds by the child's own inbound total. -/
lemma print_stacks_ok_of_counts (g : GMap) (hwf : WFMap g) (hc : CountsOk g) :
    ∀ (stack : List String) (node : Function) (count : Int),
      (∃ s0, (s0, node) ∈ g) → count ≤ node.total_call_count →
      print_stacks_ok g stack node count = true := by
  intro stack node count
  induction stack, node, count using print_stacks_ok.induct g with
  | case1 stack node count h =>
    intro _ _
    exact print_stacks_ok_cycle g stack node count h
  | case2 stack node count h1 h2 ih1 =>
    intro hex hcount
    rw [print_stacks_ok_branch g stack node count h1 h2]
    rw [Bool.and_eq_true]
    constructor
    · have hq : decide (count ≤ node.total_call_count) = true := decide_eq_true hcount
      rw [hq, Bool.or_true]
    · rw [List.all_eq_true]
      intro f hfmem
      cases hgf : getF g f.sig with
      | none => rfl
      | some fn =>
        show print_stacks_ok g (stack ++ [node.str]) fn (alGet node.callcounts f) = true
        apply ih1 f fn hgf ⟨f.sig, getF_some_mem hgf⟩
        obtain ⟨s0, hs0⟩ := hex
        have hfsig : f.sig = fn.ident.sig := hwf.2 _ (getF_some_mem hgf)
        exact alGet_le_total hc hs0 (getF_some_mem hgf) f hfsig.symm
  | case3 stack node count h1 h2 =>
    intro _ _
    exact print_stacks_ok_leafish g stack node count h1 h2

/-- Claim C10: if every call count supplied to `add_call` during model
construction is non-negative, the count invariants (`CountsOk`) hold —
they hold of the empty registry and are preserved by `lookup_f`,
`add_call`, `add_callcost` and `add_cost` — and under them every node
reached during traversal receives a count no larger than its inbound
total, so the assertion of source line 173 (modelled by
`print_stacks_ok`) never fires, in particular on the root invocations
`main` makes (count 0 at nodes with zero inbound count). -/
theorem claim_C10 :
    (∀ (g : GMap) (s1 s2 : String) (c : Int), WFMap g → CountsOk g → 0 ≤ c →
      WFMap (add_call g s1 s2 c) ∧ CountsOk (add_call g s1 s2 c)) ∧
    (∀ (g : GMap) (s1 s2 : String) (c : Int), WFMap g → CountsOk g →
      WFMap (add_callcost g s1 s2 c) ∧ CountsOk (add_callcost g s1 s2 c)) ∧
    (∀ (g : GMap) (s : String) (c : Int), WFMap g → CountsOk g →
      WFMap (add_cost g s c) ∧ CountsOk (add_cost g s c)) ∧
    (∀ (gs : Globs) (o f n : String) (gs' : Globs) (sig : String),
      WFMap gs.functions → CountsOk gs.functions → lookup_f gs o f n = .ok (gs', sig) →
      WFMap gs'.functions ∧ CountsOk gs'.functions) ∧
    (WFMap ([] : GMap) ∧ CountsOk ([] : GMap)) ∧
    (∀ (g : GMap) (stack : List String) (node : Function) (count : Int) (s : String),
      WFMap g → CountsOk g → (s, node) ∈ g → count ≤ node.total_call_count →
      print_stacks_ok g stack node count = true) ∧
    (∀ (g : GMap) (s : String) (node : Function),
      WFMap g → CountsOk g → (s, node) ∈ g → node.total_call_count = 0 →
      print_stacks_ok g [] node 0 = true) := by
  refine ⟨?_, ?_, ?_, ?_, ?_, ?_, ?_⟩
  · exact fun g s1 s2 c hwf hc hcn => add_call_preserves g s1 s2 c hwf hc hcn
  · exact fun g s1 s2 c hwf hc => add_callcost_preserves g s1 s2 c hwf hc
  · exact fun g s c hwf hc => add_cost_preserves g s c hwf hc
  · exact fun gs o f n gs' sig hwf hc h => lookup_f_preserves gs o f n gs' sig hwf hc h
  · exact ⟨by decide, by decide⟩
  · exact fun g stack node count s hwf hc hmem hcount =>
      print_stacks_ok_of_counts g hwf hc stack node count ⟨s, hmem⟩ hcount
  · exact fun g s node hwf hc hmem htot =>
      print_stacks_ok_of_counts g hwf hc [] node 0 ⟨s, hmem⟩ (by rw [htot])

/-- Witness for C10: the concrete graph `gC1` satisfies both invariants;
its root passes the assertion check, and adding a further edge with a
non-negative count keeps the invariants. -/
theorem claim_C10_witness :
    print_stacks_ok gC1 [] funcA 0 = true ∧
    (WFMap (add_call gC1 "a.c#A" "d.c#D" 2) ∧ CountsOk (add_call gC1 "a.c#A" "d.c#D" 2)) :=
  ⟨claim_C10.2.2.2.2.2.2 gC1 "a.c#A" funcA (by decide) (by decide) (by decide) rfl,
   claim_C10.1 gC1 "a.c#A" "d.c#D" 2 (by decide) (by decide) (by decide)⟩

end StackCollapse
